import Mathlib

/-!
Verification of the structural-extraction and context-chunking pipeline of a
Playwright test generator (TypeScript sources `src/index.ts`,
`src/indexer/structural.ts`).

JavaScript strings are modelled as `List Char`.  Each embedded definition
carries a comment naming the TypeScript function it translates.  JavaScript
regular-expression passes are modelled by executable scanners whose behaviour
matches the backtracking semantics of the concrete patterns used in the code
(each such derivation is documented at the definition).
-/

set_option maxHeartbeats 1000000

namespace E2E

/-- The JavaScript regex class `\s` (ECMA-262 WhiteSpace plus LineTerminator):
space, tab, LF, VT, FF, CR, NBSP, and the Unicode space separators. -/
def isJsSpace (c : Char) : Bool :=
  c = ' ' || c = '\t' || c = '\n' || c = '\x0b' || c = '\x0c' || c = '\r' ||
  c = ' ' || c = ' ' || (' ' ≤ c && c ≤ ' ') ||
  c = ' ' || c = ' ' || c = ' ' || c = ' ' ||
  c = '　' || c = '﻿'

/-- The JavaScript regex class `\w`: ASCII letters, digits and underscore. -/
def isWordChar (c : Char) : Bool :=
  ('a' ≤ c && c ≤ 'z') || ('A' ≤ c && c ≤ 'Z') || ('0' ≤ c && c ≤ '9') || c = '_'

/-- The character class `[\w\-\.\/]` of the filename capture group in
`_parseGeneratedTests`. -/
def isNameChar (c : Char) : Bool :=
  isWordChar c || c = '-' || c = '.' || c = '/'

/-- `pat.isPrefixOf l` for char lists, executable. -/
def isPrefixL : List Char → List Char → Bool
  | [], _ => true
  | _ :: _, [] => false
  | p :: ps, c :: cs => p = c && isPrefixL ps cs

/-- JavaScript `String.prototype.includes`: `hasSub sub hay` is true iff
`sub` occurs as a contiguous substring of `hay`. -/
def hasSub (sub : List Char) : List Char → Bool
  | [] => sub.isEmpty
  | c :: rest => isPrefixL sub (c :: rest) || hasSub sub rest

/-- JavaScript `String.prototype.trim` (left part): drop leading whitespace. -/
def trimLeft (l : List Char) : List Char := l.dropWhile isJsSpace

/-- JavaScript `String.prototype.trim`: drop leading and trailing whitespace. -/
def jsTrim (l : List Char) : List Char :=
  ((trimLeft l).reverse.dropWhile isJsSpace).reverse

/-- JavaScript `String.prototype.toLowerCase`, restricted to ASCII as used by
the sources (tag names, file names). -/
def jsLower (l : List Char) : List Char := l.map Char.toLower

/-! ## Context chunking (`_chunkCodeContext`, src/index.ts lines 355-382) -/

/-- `CodeContext` of src/index.ts: one analyzed file. -/
structure CodeContext where
  file : List Char
  summary : List Char
  exportedItems : List (List Char)
  content : List Char
  size : Nat
deriving DecidableEq, Repr

/-- Loop body of `_chunkCodeContext`: `cur` is the chunk being accumulated
(`currentChunk`), `curSize` its running size (`currentSize`).  A context is
pushed after closing the current chunk whenever adding it would exceed the
budget and the current chunk is non-empty (`currentChunk.length > 0`); the
final non-empty chunk is emitted at the end. -/
def chunkGo (target : Nat) : List CodeContext → Nat → List CodeContext →
    List (List CodeContext)
  | cur, _, [] => if cur = [] then [] else [cur]
  | cur, curSize, fc :: rest =>
    if target < curSize + fc.size ∧ cur ≠ [] then
      cur :: chunkGo target [fc] fc.size rest
    else
      chunkGo target (cur ++ [fc]) (curSize + fc.size) rest

/-- `_chunkCodeContext` (src/index.ts lines 355-382): greedy partition of the
context list under the per-chunk budget `target`. -/
def chunkCodeContext (target : Nat) (codeContext : List CodeContext) :
    List (List CodeContext) :=
  chunkGo target [] 0 codeContext

/-- The per-chunk budget `targetSize = (maxTokensPerRequest / 2) * avgTokenRatio`
with `avgTokenRatio = 4`; in JavaScript float arithmetic this is exactly
`2 * maxTokensPerRequest`. -/
def chunkBudget (maxTokensPerRequest : Nat) : Nat := 2 * maxTokensPerRequest

/-- Cumulative size of a chunk. -/
def sizeSum (c : List CodeContext) : Nat := (c.map CodeContext.size).sum

theorem chunkGo_flatten (target : Nat) :
    ∀ (l : List CodeContext) (cur : List CodeContext) (curSize : Nat),
      (chunkGo target cur curSize l).flatten = cur ++ l := by
  intro l
  induction l with
  | nil =>
    intro cur curSize
    by_cases h : cur = []
    · simp [chunkGo, h]
    · simp [chunkGo, h]
  | cons fc rest ih =>
    intro cur curSize
    by_cases h : target < curSize + fc.size ∧ cur ≠ []
    · rw [chunkGo, if_pos h]
      simp [ih]
    · rw [chunkGo, if_neg h, ih]
      simp

theorem chunkGo_sound (target : Nat) :
    ∀ (l : List CodeContext) (cur : List CodeContext) (curSize : Nat),
      curSize = sizeSum cur →
      (cur = [] ∨ sizeSum cur ≤ target ∨ ∃ x, cur = [x] ∧ target < x.size) →
      ∀ c ∈ chunkGo target cur curSize l,
        c ≠ [] ∧ (sizeSum c ≤ target ∨ ∃ x, c = [x] ∧ target < x.size) := by
  intro l
  induction l with
  | nil =>
    intro cur curSize hsz hinv c hc
    rw [chunkGo] at hc
    by_cases h : cur = []
    · simp [h] at hc
    · rw [if_neg h] at hc
      rcases List.mem_singleton.mp hc with rfl
      refine ⟨h, ?_⟩
      rcases hinv with h0 | h1 | h2
      · exact absurd h0 h
      · exact Or.inl h1
      · exact Or.inr h2
  | cons fc rest ih =>
    intro cur curSize hsz hinv c hc
    rw [chunkGo] at hc
    by_cases h : target < curSize + fc.size ∧ cur ≠ []
    · rw [if_pos h] at hc
      rcases List.mem_cons.mp hc with hceq | hmem
      · subst hceq
        refine ⟨h.2, ?_⟩
        rcases hinv with h0 | h1 | h2
        · exact absurd h0 h.2
        · exact Or.inl h1
        · exact Or.inr h2
      · refine ih [fc] fc.size (by simp [sizeSum]) ?_ c hmem
        by_cases hover : fc.size ≤ target
        · exact Or.inr (Or.inl (by simp [sizeSum, hover]))
        · exact Or.inr (Or.inr ⟨fc, rfl, Nat.lt_of_not_le hover⟩)
    · rw [if_neg h] at hc
      refine ih (cur ++ [fc]) (curSize + fc.size) ?_ ?_ c hc
      · simp [sizeSum, hsz]
      · by_cases he : cur = []
        · subst he
          by_cases hover : fc.size ≤ target
          · exact Or.inr (Or.inl (by simp [sizeSum, hover]))
          · exact Or.inr (Or.inr ⟨fc, rfl, Nat.lt_of_not_le hover⟩)
        · have hle : ¬ target < curSize + fc.size := fun hlt => h ⟨hlt, he⟩
          refine Or.inr (Or.inl ?_)
          have hs : sizeSum (cur ++ [fc]) = curSize + fc.size := by
            simp [sizeSum, hsz]
          omega

/-- C1: for every budget and input context list, the chunks produced by
`_chunkCodeContext` are all non-empty, their concatenation is exactly the
input list in order, and each chunk either fits the budget or is a single
context whose own size exceeds the budget. -/
theorem chunkCodeContext_spec (target : Nat) (l : List CodeContext) :
    (chunkCodeContext target l).flatten = l ∧
    ∀ c ∈ chunkCodeContext target l,
      c ≠ [] ∧ (sizeSum c ≤ target ∨ ∃ x, c = [x] ∧ target < x.size) := by
  constructor
  · simpa using chunkGo_flatten target l [] 0
  · exact chunkGo_sound target l [] 0 (by simp [sizeSum]) (Or.inl rfl)

/-- A context of a given size with empty metadata, for concrete examples. -/
def ctxOfSize (n : Nat) : CodeContext := ⟨[], [], [], [], n⟩

/-- Concrete instantiation of `chunkCodeContext_spec`: with budget 10 and
sizes `[6, 5, 20]`, the membership hypothesis is discharged on the oversized
singleton chunk `[20]`. -/
theorem chunkCodeContext_spec_witness :
    [ctxOfSize 20] ∈ chunkCodeContext 10 [ctxOfSize 6, ctxOfSize 5, ctxOfSize 20] ∧
    ([ctxOfSize 20] ≠ [] ∧
      (sizeSum [ctxOfSize 20] ≤ 10 ∨ ∃ x, [ctxOfSize 20] = [x] ∧ 10 < x.size)) :=
  ⟨by decide,
    (chunkCodeContext_spec 10 [ctxOfSize 6, ctxOfSize 5, ctxOfSize 20]).2 _ (by decide)⟩

/-! ## File prioritization (`_prioritizeFiles`, `_isUIComponent`,
src/index.ts lines 114-170) -/

/-- `path.basename`: the final path segment, the part after the last slash.
(Node also strips a trailing slash; glob results never end in one.) -/
def basenameL (l : List Char) : List Char :=
  (l.reverse.takeWhile (fun c => c ≠ '/')).reverse

/-- The `uiIndicators` vocabulary of `_isUIComponent`. -/
def uiIndicators : List (List Char) :=
  [('c'::"omponent".toList), "button".toList, "form".toList, "page".toList,
   "view".toList, "modal".toList, "dialog".toList, "card".toList,
   "panel".toList, "input".toList, "select".toList]

/-- `_isUIComponent` (src/index.ts lines 156-170): the lower-cased basename
contains one of the UI indicator tokens, or the path contains a
`/components/` or `/pages/` segment (the path checks sit inside the
`some(...)` callback in the source, which is equivalent because the
indicator list is non-empty). -/
def isUIComponent (filePath : List Char) : Bool :=
  let fileName := jsLower (basenameL filePath)
  uiIndicators.any (fun indicator =>
    hasSub indicator fileName ||
    hasSub ('/'::"components/".toList) filePath ||
    hasSub ('/'::"pages/".toList) filePath)

/-- The entry-point marker test of `_prioritizeFiles` tier 2:
`file.includes('index.') || file.includes('main.') || file.includes('app.')`. -/
def hasEntryMarker (file : List Char) : Bool :=
  hasSub "index.".toList file || hasSub "main.".toList file ||
  hasSub "app.".toList file

/-- Tier 1 of `_prioritizeFiles`: `allFiles.filter(file => this._isUIComponent(file))`. -/
def uiFilesOf (allFiles : List (List Char)) : List (List Char) :=
  allFiles.filter isUIComponent

/-- Tier 2 of `_prioritizeFiles`: files not already collected whose path
contains an entry-point marker. -/
def entryFilesOf (allFiles : List (List Char)) : List (List Char) :=
  allFiles.filter (fun file =>
    !(uiFilesOf allFiles).contains file && hasEntryMarker file)

/-- Tier 3 candidates of `_prioritizeFiles`: files not already collected. -/
def otherFilesOf (allFiles : List (List Char)) : List (List Char) :=
  allFiles.filter (fun file =>
    !((uiFilesOf allFiles ++ entryFilesOf allFiles).contains file))

/-- JavaScript `Array.prototype.slice(0, e)` where `e` may be negative
(a negative end counts from the end of the array). -/
def jsSliceTo (l : List (List Char)) (e : Int) : List (List Char) :=
  if 0 ≤ e then l.take e.toNat else l.take ((l.length : Int) + e).toNat

/-- `_prioritizeFiles` (src/index.ts lines 114-151), pure core: tiers 1 and 2
are appended whole; tier 3 is cut to `Math.min(30 - prioritizedFiles.length,
otherFiles.length)` further files (a quantity that is negative when tiers 1-2
already exceed 30, in which case `slice` counts from the end). -/
def prioritizeFiles (allFiles : List (List Char)) : List (List Char) :=
  let prioritized := uiFilesOf allFiles ++ entryFilesOf allFiles
  let otherFiles := otherFilesOf allFiles
  let remainingToAdd : Int :=
    min ((30 : Int) - prioritized.length) (otherFiles.length : Int)
  prioritized ++ jsSliceTo otherFiles remainingToAdd

/-- Thirty-one distinct file names that all match the UI indicator `button`. -/
def exManyUIFiles : List (List Char) :=
  (List.range 31).map (fun i => "button".toList ++ (Nat.repr i).toList)

/-- C2, counterexample: on 31 distinct files whose names all contain the
indicator `button`, `_prioritizeFiles` returns 31 files, exceeding the
claimed cap of 30 — only tier 3 is cut to the cap, tiers 1 and 2 are
appended whole. -/
theorem prioritizeFiles_over30_cex :
    (prioritizeFiles exManyUIFiles).length = 31 := by decide

/-- C2, amended: the Prioritizer returns at most 30 files whenever at most
30 files fall in tiers 1 and 2 (UI indicator or entry-point files); the cap
only limits how many tier-3 files are appended. -/
theorem prioritizeFiles_capped (allFiles : List (List Char))
    (h : (uiFilesOf allFiles ++ entryFilesOf allFiles).length ≤ 30) :
    (prioritizeFiles allFiles).length ≤ 30 := by
  unfold prioritizeFiles
  set p := uiFilesOf allFiles ++ entryFilesOf allFiles with hp
  set o := otherFilesOf allFiles with ho
  have hnn : (0 : Int) ≤ min ((30 : Int) - p.length) (o.length : Int) ⊔ 0 := by
    exact le_max_right _ _
  rw [List.length_append]
  have hcut : (jsSliceTo o (min ((30 : Int) - p.length) (o.length : Int))).length
      ≤ 30 - p.length := by
    unfold jsSliceTo
    have h30 : (0 : Int) ≤ (30 : Int) - p.length := by
      omega
    rw [if_pos (le_min h30 (by positivity))]
    have := List.length_take_le
      (min ((30 : Int) - ↑p.length) (o.length : Int)).toNat o
    refine le_trans this ?_
    have : (min ((30 : Int) - ↑p.length) (o.length : Int)).toNat
        ≤ ((30 : Int) - ↑p.length).toNat := by
      apply Int.toNat_le_toNat
      exact min_le_left _ _
    omega
  omega

/-- Concrete instantiation of `prioritizeFiles_capped` on a single plain
file name. -/
theorem prioritizeFiles_capped_witness :
    (prioritizeFiles ["z.ts".toList]).length ≤ 30 :=
  prioritizeFiles_capped ["z.ts".toList] (by decide)

/-- Value-level tier-1 predicate: matches the UI indicator vocabulary. -/
def tier1v (f : List Char) : Bool := isUIComponent f

/-- Value-level tier-2 predicate: not a UI file, carries an entry marker. -/
def tier2v (f : List Char) : Bool := !isUIComponent f && hasEntryMarker f

/-- Value-level tier-3 predicate: neither a UI file nor an entry file. -/
def tier3v (f : List Char) : Bool := !isUIComponent f && !hasEntryMarker f

theorem mem_uiFilesOf {allFiles : List (List Char)} {f : List Char} :
    f ∈ uiFilesOf allFiles ↔ f ∈ allFiles ∧ isUIComponent f := by
  simp [uiFilesOf]

theorem containsL_false_iff {l : List (List Char)} {f : List Char} :
    l.contains f = false ↔ f ∉ l := by
  rw [← Bool.not_eq_true, List.elem_iff]

theorem mem_entryFilesOf {allFiles : List (List Char)} {f : List Char} :
    f ∈ entryFilesOf allFiles → tier2v f = true := by
  intro h
  have hcond := List.of_mem_filter h
  have hmem := List.mem_of_mem_filter h
  simp only [Bool.and_eq_true, Bool.not_eq_true'] at hcond
  rcases hcond with ⟨hnc, hmark⟩
  have hnin := containsL_false_iff.mp hnc
  have hnui : isUIComponent f = false := by
    by_contra hui
    exact hnin (mem_uiFilesOf.mpr ⟨hmem, Bool.of_not_eq_false hui⟩)
  simp [tier2v, hnui, hmark]

theorem mem_otherFilesOf {allFiles : List (List Char)} {f : List Char} :
    f ∈ otherFilesOf allFiles → tier3v f = true := by
  intro h
  have hcond := List.of_mem_filter h
  have hmem := List.mem_of_mem_filter h
  rw [Bool.not_eq_eq_eq_not, Bool.not_true, containsL_false_iff] at hcond
  have hnui : isUIComponent f = false := by
    by_contra hui
    exact hcond (List.mem_append_left _
      (mem_uiFilesOf.mpr ⟨hmem, Bool.of_not_eq_false hui⟩))
  have hnmark : hasEntryMarker f = false := by
    by_contra hmk
    refine hcond (List.mem_append_right _ ?_)
    refine List.mem_filter.mpr ⟨hmem, ?_⟩
    have : (uiFilesOf allFiles).contains f = false := by
      rw [containsL_false_iff]
      intro hin
      exact (by simp [(mem_uiFilesOf.mp hin).2] at hnui : False)
    rw [this]
    simp [Bool.of_not_eq_false hmk]
  simp [tier3v, hnui, hnmark]

theorem mem_jsSliceTo {l : List (List Char)} {e : Int} {f : List Char} :
    f ∈ jsSliceTo l e → f ∈ l := by
  unfold jsSliceTo
  by_cases h : 0 ≤ e
  · rw [if_pos h]; exact fun hm => List.mem_of_mem_take hm
  · rw [if_neg h]; exact fun hm => List.mem_of_mem_take hm

theorem tier1v_not_tier2v {f : List Char} (h : tier1v f = true) :
    tier2v f = false := by
  simp only [tier1v] at h
  simp [tier2v, h]

theorem tier1v_not_tier3v {f : List Char} (h : tier1v f = true) :
    tier3v f = false := by
  simp only [tier1v] at h
  simp [tier3v, h]

theorem tier2v_not_tier3v {f : List Char} (h : tier2v f = true) :
    tier3v f = false := by
  simp only [tier2v, Bool.and_eq_true, Bool.not_eq_true'] at h
  simp [tier3v, h.1, h.2]

/-- Case split for an index into the three segments of the prioritized list. -/
theorem prioritizeFiles_index_cases (allFiles : List (List Char)) (i : Nat)
    (hi : i < (prioritizeFiles allFiles).length) :
    ((prioritizeFiles allFiles).get ⟨i, hi⟩ ∈ uiFilesOf allFiles ∧
        i < (uiFilesOf allFiles).length) ∨
    ((prioritizeFiles allFiles).get ⟨i, hi⟩ ∈ entryFilesOf allFiles ∧
        (uiFilesOf allFiles).length ≤ i ∧
        i < (uiFilesOf allFiles).length + (entryFilesOf allFiles).length) ∨
    (tier3v ((prioritizeFiles allFiles).get ⟨i, hi⟩) = true ∧
        (uiFilesOf allFiles).length + (entryFilesOf allFiles).length ≤ i) := by
  classical
  set A := uiFilesOf allFiles with hA
  set B := entryFilesOf allFiles with hB
  set C := jsSliceTo (otherFilesOf allFiles)
    (min ((30 : Int) - (A ++ B).length) ((otherFilesOf allFiles).length : Int))
    with hC
  have hout : prioritizeFiles allFiles = (A ++ B) ++ C := rfl
  have hi2 : i < ((A ++ B) ++ C).length := by rw [← hout]; exact hi
  have hget : (prioritizeFiles allFiles).get ⟨i, hi⟩ = ((A ++ B) ++ C).get ⟨i, hi2⟩ := by
    congr 1
  rw [hget]
  by_cases h1 : i < (A ++ B).length
  · have hv : ((A ++ B) ++ C).get ⟨i, hi2⟩ = (A ++ B).get ⟨i, h1⟩ :=
      List.get_append i h1
    by_cases h2 : i < A.length
    · left
      have hv2 : (A ++ B).get ⟨i, h1⟩ = A.get ⟨i, h2⟩ := List.get_append i h2
      refine ⟨?_, h2⟩
      rw [hv, hv2]
      exact List.get_mem _ _ _
    · right; left
      push_neg at h2
      have h3 : i - A.length < B.length := by
        have := List.length_append A B ▸ h1
        omega
      have hv2 : (A ++ B).get ⟨i, h1⟩ = B.get ⟨i - A.length, h3⟩ :=
        List.get_append_right A B h2
      refine ⟨?_, h2, by have := List.length_append A B ▸ h1; omega⟩
      rw [hv, hv2]
      exact List.get_mem _ _ _
  · right; right
    push_neg at h1
    have h3 : i - (A ++ B).length < C.length := by
      have := List.length_append (A ++ B) C ▸ hi2
      omega
    have hv : ((A ++ B) ++ C).get ⟨i, hi2⟩ = C.get ⟨i - (A ++ B).length, h3⟩ :=
      List.get_append_right (A ++ B) C h1
    have hmemC : ((A ++ B) ++ C).get ⟨i, hi2⟩ ∈ C := by
      rw [hv]; exact List.get_mem _ _ _
    refine ⟨mem_otherFilesOf (mem_jsSliceTo hmemC), ?_⟩
    have := List.length_append A B
    omega

/-- C3: in the output of `_prioritizeFiles`, every tier-1 file (UI-indicator
match) appears before every tier-2 file (entry-point match), every tier-1
file before every tier-3 file, and every tier-2 file before every tier-3
file; moreover the three tier lists are pairwise disjoint, so an input file
is collected by at most one tier (first match wins). -/
theorem prioritizeFiles_tier_order (allFiles : List (List Char)) :
    (∀ i j (hi : i < (prioritizeFiles allFiles).length)
        (hj : j < (prioritizeFiles allFiles).length),
      tier1v ((prioritizeFiles allFiles).get ⟨i, hi⟩) = true →
      tier2v ((prioritizeFiles allFiles).get ⟨j, hj⟩) = true → i < j) ∧
    (∀ i j (hi : i < (prioritizeFiles allFiles).length)
        (hj : j < (prioritizeFiles allFiles).length),
      tier1v ((prioritizeFiles allFiles).get ⟨i, hi⟩) = true →
      tier3v ((prioritizeFiles allFiles).get ⟨j, hj⟩) = true → i < j) ∧
    (∀ i j (hi : i < (prioritizeFiles allFiles).length)
        (hj : j < (prioritizeFiles allFiles).length),
      tier2v ((prioritizeFiles allFiles).get ⟨i, hi⟩) = true →
      tier3v ((prioritizeFiles allFiles).get ⟨j, hj⟩) = true → i < j) ∧
    (∀ f, (f ∈ uiFilesOf allFiles →
        f ∉ entryFilesOf allFiles ∧ f ∉ otherFilesOf allFiles) ∧
      (f ∈ entryFilesOf allFiles → f ∉ otherFilesOf allFiles)) := by
  have key1 : ∀ i (hi : i < (prioritizeFiles allFiles).length),
      tier1v ((prioritizeFiles allFiles).get ⟨i, hi⟩) = true →
      i < (uiFilesOf allFiles).length := by
    intro i hi h
    rcases prioritizeFiles_index_cases allFiles i hi with ⟨_, hlt⟩ | ⟨hmem, _⟩ | ⟨hv, _⟩
    · exact hlt
    · have := tier1v_not_tier2v h
      rw [mem_entryFilesOf hmem] at this
      exact absurd this (by simp)
    · have := tier1v_not_tier3v h
      rw [hv] at this
      exact absurd this (by simp)
  have key2 : ∀ j (hj : j < (prioritizeFiles allFiles).length),
      tier2v ((prioritizeFiles allFiles).get ⟨j, hj⟩) = true →
      (uiFilesOf allFiles).length ≤ j ∧
        j < (uiFilesOf allFiles).length + (entryFilesOf allFiles).length := by
    intro j hj h
    rcases prioritizeFiles_index_cases allFiles j hj with ⟨hmem, _⟩ | ⟨_, hge, hlt⟩ | ⟨hv, _⟩
    · have h1 : tier1v ((prioritizeFiles allFiles).get ⟨j, hj⟩) = true := by
        have := (mem_uiFilesOf.mp hmem).2
        simpa [tier1v] using this
      have := tier1v_not_tier2v h1
      rw [h] at this
      exact absurd this (by simp)
    · exact ⟨hge, hlt⟩
    · have := tier2v_not_tier3v h
      rw [hv] at this
      exact absurd this (by simp)
  have key3 : ∀ j (hj : j < (prioritizeFiles allFiles).length),
      tier3v ((prioritizeFiles allFiles).get ⟨j, hj⟩) = true →
      (uiFilesOf allFiles).length + (entryFilesOf allFiles).length ≤ j := by
    intro j hj h
    rcases prioritizeFiles_index_cases allFiles j hj with ⟨hmem, _⟩ | ⟨hmem, _, _⟩ | ⟨_, hge⟩
    · have h1 : tier1v ((prioritizeFiles allFiles).get ⟨j, hj⟩) = true := by
        have := (mem_uiFilesOf.mp hmem).2
        simpa [tier1v] using this
      have := tier1v_not_tier3v h1
      rw [h] at this
      exact absurd this (by simp)
    · have := tier2v_not_tier3v (mem_entryFilesOf hmem)
      rw [h] at this
      exact absurd this (by simp)
    · exact hge
  refine ⟨?_, ?_, ?_, ?_⟩
  · intro i j hi hj h1 h2
    have := key1 i hi h1
    have := (key2 j hj h2).1
    omega
  · intro i j hi hj h1 h3
    have := key1 i hi h1
    have := key3 j hj h3
    omega
  · intro i j hi hj h2 h3
    have := (key2 i hi h2).2
    have := key3 j hj h3
    omega
  · intro f
    constructor
    · intro hf
      have ht1 : tier1v f = true := by
        simpa [tier1v] using (mem_uiFilesOf.mp hf).2
      constructor
      · intro hin
        have := mem_entryFilesOf hin
        rw [tier1v_not_tier2v ht1] at this
        exact absurd this (by simp)
      · intro hin
        have := mem_otherFilesOf hin
        rw [tier1v_not_tier3v ht1] at this
        exact absurd this (by simp)
    · intro hf hin
      have := mem_otherFilesOf hin
      rw [tier2v_not_tier3v (mem_entryFilesOf hf)] at this
      exact absurd this (by simp)

/-- Concrete instantiation of `prioritizeFiles_tier_order` on
`["app.ts", "button.ts", "z.ts"]`, whose prioritized order is
`["button.ts", "app.ts", "z.ts"]`: the tier-1 file at index 0 precedes the
tier-2 file at index 1, which precedes the tier-3 file at index 2. -/
theorem prioritizeFiles_tier_order_witness :
    (0 : Nat) < 1 ∧ (1 : Nat) < 2 :=
  ⟨(prioritizeFiles_tier_order
      ["app.ts".toList, ('b'::"utton.ts".toList), "z.ts".toList]).1
      0 1 (by decide) (by decide) (by decide) (by decide),
   (prioritizeFiles_tier_order
      ["app.ts".toList, ('b'::"utton.ts".toList), "z.ts".toList]).2.2.1
      1 2 (by decide) (by decide) (by decide) (by decide)⟩

/-! ## Content sanitization (`_sanitizeContent`, src/index.ts lines 285-297)

Four global regex-replace passes.  Each is modelled by a left-to-right
scanner; the fuel argument (instantiated with the list length by the
wrapper) only serves to make the recursion structural, so that the
definitions reduce inside `decide`. -/

/-- Scanning for the end of a lazy block-comment body: returns the text
after the first `*/`, or `none` when no `*/` follows (in which case the
regex `\/\*[\s\S]*?\*\//` does not match at the opening position). -/
def dropThroughClose : List Char → Option (List Char)
  | '*' :: '/' :: rest => some rest
  | _ :: rest => dropThroughClose rest
  | [] => none

theorem dropThroughClose_length :
    ∀ {l r : List Char}, dropThroughClose l = some r → r.length + 2 ≤ l.length := by
  intro l
  induction l using dropThroughClose.induct with
  | case1 rest =>
    intro r h
    rw [dropThroughClose] at h
    cases h
    simp
  | case2 c rest h ih =>
    intro r hr
    have he : dropThroughClose (c :: rest) = dropThroughClose rest := by
      rw [dropThroughClose.eq_def]
      split
      · next rest2 heq =>
          obtain ⟨h1, h2⟩ := List.cons.inj heq
          exact (h rest2 h1 h2).elim
      · next x r2 c2 r3 heq =>
          obtain ⟨h1, h2⟩ := List.cons.inj heq
          rw [h2]
      · next heq => exact absurd heq (by simp)
    rw [he] at hr
    have := ih hr
    simp only [List.length_cons]
    omega
  | case3 => intro r h; simp [dropThroughClose] at h

/-- First pass of `_sanitizeContent`: `content.replace(/\/\*[\s\S]*?\*\//g, '')`.
The scanner removes, at each position, a `/*` together with the lazily
matched body up to the first following `*/`; an unclosed `/*` is left in
place (the regex does not match there) and scanning resumes one character
later. -/
def removeBlockF : Nat → List Char → List Char
  | 0, l => l
  | _ + 1, [] => []
  | fuel + 1, '/' :: '*' :: rest =>
    match dropThroughClose rest with
    | some rest2 => removeBlockF fuel rest2
    | none => '/' :: removeBlockF fuel ('*' :: rest)
  | fuel + 1, c :: rest => c :: removeBlockF fuel rest

/-- Wrapper with enough fuel to process the whole input. -/
def removeBlockComments (l : List Char) : List Char := removeBlockF l.length l

/-- `[^\n]*` (greedy) after a `//`: the match ends right before the first
newline (or at the end of input); the newline itself is kept. -/
def dropToNl : List Char → List Char
  | [] => []
  | '\n' :: rest => '\n' :: rest
  | _ :: rest => dropToNl rest

/-- Second pass of `_sanitizeContent`: `.replace(/\/\/[^\n]*\/g, '')` with
the line-comment pattern: each `//` and the rest of its line are removed. -/
def removeLineF : Nat → List Char → List Char
  | 0, l => l
  | _ + 1, [] => []
  | fuel + 1, '/' :: '/' :: rest => removeLineF fuel (dropToNl rest)
  | fuel + 1, c :: rest => c :: removeLineF fuel rest

/-- Wrapper with enough fuel to process the whole input. -/
def removeLineComments (l : List Char) : List Char := removeLineF l.length l

/-- The maximal whitespace run from the current position. -/
def runOf (l : List Char) : List Char := l.takeWhile isJsSpace

/-- Newline count of a list. -/
def nlCount (l : List Char) : Nat := l.count '\n'

/-- Length of a whitespace run up to and including its last newline: this is
how far the greedy match `\n\s*\n\s*\n` of the blank-line pass extends (the
first `\s*` is maximal, so the match ends at the last newline of the run). -/
def nlSpan (run : List Char) : Nat :=
  run.length - (run.reverse.takeWhile (fun c => c ≠ '\n')).length

/-- Third pass of `_sanitizeContent`:
`.replace(/\n\s*\n\s*\n/g, '\n\n')`.  The pattern matches at a newline
whose maximal whitespace run contains at least three newlines; the greedy
match extends to the last newline of the run and is replaced by two
newlines, after which scanning resumes past the match. -/
def collapseF : Nat → List Char → List Char
  | 0, l => l
  | _ + 1, [] => []
  | fuel + 1, c :: rest =>
    if c = '\n' ∧ 3 ≤ nlCount (runOf (c :: rest)) then
      '\n' :: '\n' :: collapseF fuel ((c :: rest).drop (nlSpan (runOf (c :: rest))))
    else c :: collapseF fuel rest

/-- Wrapper with enough fuel to process the whole input. -/
def collapseBlankLines (l : List Char) : List Char := collapseF l.length l

/-- The class `[ \t]` of the trailing-whitespace pass. -/
def isBlankChar (c : Char) : Bool := c = ' ' || c = '\t'

/-- Fourth pass of `_sanitizeContent`: `.replace(/[ \t]+\n/g, '\n')`.  A
maximal run of blanks directly followed by a newline is removed (the newline
is kept, and scanning resumes after it); otherwise the scanner advances one
character. -/
def stripTWF : Nat → List Char → List Char
  | 0, l => l
  | _ + 1, [] => []
  | fuel + 1, c :: rest =>
    if isBlankChar c then
      let d := (c :: rest).drop ((c :: rest).takeWhile isBlankChar).length
      if d.head? = some '\n' then '\n' :: stripTWF fuel d.tail
      else c :: stripTWF fuel rest
    else c :: stripTWF fuel rest

/-- Wrapper with enough fuel to process the whole input. -/
def stripTrailingWS (l : List Char) : List Char := stripTWF l.length l

/-- `_sanitizeContent` (src/index.ts lines 285-297): strip block comments,
strip line comments, collapse runs of blank lines, remove trailing blanks
before newlines. -/
def sanitizeContent (content : List Char) : List Char :=
  stripTrailingWS (collapseBlankLines (removeLineComments
    (removeBlockComments content)))

/-- C6, counterexample: sanitization is not idempotent.  On the input
`//*c*/*zz*/` the block-comment pass removes the inner `/*c*/`, gluing the
leading slash to the leftover text and creating the brand-new block comment
`/*zz*/`, which only the second sanitization pass removes. -/
theorem sanitizeContent_not_idempotent_cex :
    sanitizeContent (sanitizeContent ('/':: '/':: '*':: 'c':: '*':: '/':: '*':: 'z':: 'z':: '*':: '/'::[]))
      ≠ sanitizeContent ('/':: '/':: '*':: 'c':: '*':: '/':: '*':: 'z':: 'z':: '*':: '/'::[]) := by
  decide

/-! ### Idempotence of sanitization on slash-free content

The amended claim: on content with no `/` character (hence no comment
delimiters, and none creatable), sanitizing twice equals sanitizing once.
The proof shows the two whitespace passes reach a normal form: after
collapsing, no whitespace run contains three newlines (`noTriple`), and
after trailing-blank removal no blank directly precedes a newline
(`noTrail`); both passes are the identity on such normal forms. -/

/-- No position starts a match of the blank-line pattern: every newline sees
fewer than three newlines in its maximal whitespace run. -/
def noTriple : List Char → Bool
  | [] => true
  | c :: rest =>
    (if c = '\n' then decide (nlCount (runOf (c :: rest)) < 3) else true) &&
      noTriple rest

/-- No position starts a match of the trailing-blank pattern: no blank is
directly followed by a newline. -/
def noTrail : List Char → Bool
  | [] => true
  | [_] => true
  | a :: b :: rest =>
    (if b = '\n' then !isBlankChar a else true) && noTrail (b :: rest)

theorem blank_isJsSpace {c : Char} (h : isBlankChar c = true) :
    isJsSpace c = true := by
  simp only [isBlankChar, Bool.or_eq_true, decide_eq_true_eq] at h
  rcases h with rfl | rfl <;> decide

theorem blank_ne_nl {c : Char} (h : isBlankChar c = true) : c ≠ '\n' := by
  simp only [isBlankChar, Bool.or_eq_true, decide_eq_true_eq] at h
  rcases h with rfl | rfl <;> decide

theorem nl_isJsSpace : isJsSpace '\n' = true := by decide

theorem runOf_cons_pos {c : Char} (h : isJsSpace c = true) (l : List Char) :
    runOf (c :: l) = c :: runOf l := by
  simp [runOf, List.takeWhile_cons, h]

theorem runOf_cons_neg {c : Char} (h : isJsSpace c = false) (l : List Char) :
    runOf (c :: l) = [] := by
  simp [runOf, List.takeWhile_cons, h]

theorem nlCount_cons (c : Char) (l : List Char) :
    nlCount (c :: l) = (if c = '\n' then 1 else 0) + nlCount l := by
  simp only [nlCount, List.count_cons]
  by_cases h : c = '\n' <;> simp [h, Nat.add_comm]

theorem nlCount_nl_cons (l : List Char) :
    nlCount ('\n' :: l) = nlCount l + 1 := by
  simp [nlCount, List.count_cons]

theorem runOf_nl_cons (l : List Char) : runOf ('\n' :: l) = '\n' :: runOf l :=
  runOf_cons_pos nl_isJsSpace l

theorem nlCount_append (a b : List Char) :
    nlCount (a ++ b) = nlCount a + nlCount b := by
  simp [nlCount, List.count_append]

theorem nlCount_eq_zero {l : List Char} (h : ∀ c ∈ l, c ≠ '\n') :
    nlCount l = 0 := by
  simp only [nlCount, List.count_eq_zero]
  intro hmem
  exact h '\n' hmem rfl

theorem takeWhile_append_of_all {p : Char → Bool} {a : List Char}
    (h : ∀ c ∈ a, p c = true) (b : List Char) :
    (a ++ b).takeWhile p = a ++ b.takeWhile p := by
  induction a with
  | nil => simp
  | cons c rest ih =>
    have hc : p c = true := h c (by simp)
    simp only [List.cons_append, List.takeWhile_cons, hc, if_true]
    rw [ih (fun d hd => h d (by simp [hd]))]

theorem takeWhile_dropWhile_self (p : Char → Bool) (l : List Char) :
    (l.dropWhile p).takeWhile p = [] := by
  induction l with
  | nil => simp
  | cons c rest ih =>
    by_cases h : p c = true
    · simp [List.dropWhile_cons, h, ih]
    · rw [Bool.not_eq_true] at h
      simp [List.dropWhile_cons, List.takeWhile_cons, h]

theorem drop_length_takeWhile (p : Char → Bool) (l : List Char) :
    l.drop (l.takeWhile p).length = l.dropWhile p := by
  induction l with
  | nil => simp
  | cons c rest ih =>
    by_cases h : p c = true
    · simp [List.takeWhile_cons, List.dropWhile_cons, h, ih]
    · rw [Bool.not_eq_true] at h
      simp [List.takeWhile_cons, List.dropWhile_cons, h]

theorem takeWhile_ne_lt_length {a : Char} {l : List Char} (h : a ∈ l) :
    (l.takeWhile (fun c => c ≠ a)).length < l.length := by
  induction l with
  | nil => simp at h
  | cons c rest ih =>
    by_cases hc : c = a
    · subst hc
      simp [List.takeWhile_cons]
    · have hmem : a ∈ rest := by
        rcases List.mem_cons.mp h with h1 | h1
        · exact absurd h1.symm hc
        · exact h1
      simp only [List.takeWhile_cons, decide_eq_true_eq]
      rw [if_pos hc]
      simpa using ih hmem

theorem nlSpan_le (run : List Char) : nlSpan run ≤ run.length :=
  Nat.sub_le _ _

theorem drop_nlSpan (run : List Char) :
    run.drop (nlSpan run) = (run.reverse.takeWhile (fun c => c ≠ '\n')).reverse := by
  have hsplit := List.takeWhile_append_dropWhile (fun c => c ≠ '\n') run.reverse
  have hrev : run =
      (run.reverse.dropWhile (fun c => c ≠ '\n')).reverse ++
      (run.reverse.takeWhile (fun c => c ≠ '\n')).reverse := by
    have h0 := congrArg List.reverse hsplit
    rw [List.reverse_append, List.reverse_reverse] at h0
    exact h0.symm
  have hlen : (run.reverse.dropWhile (fun c => c ≠ '\n')).reverse.length = nlSpan run := by
    have h1 := congrArg List.length hsplit
    simp only [List.length_append, List.length_reverse] at h1 ⊢
    simp only [nlSpan]
    omega
  calc run.drop (nlSpan run)
      = ((run.reverse.dropWhile (fun c => c ≠ '\n')).reverse ++
          (run.reverse.takeWhile (fun c => c ≠ '\n')).reverse).drop
          (run.reverse.dropWhile (fun c => c ≠ '\n')).reverse.length := by
        rw [← hrev, hlen]
    _ = (run.reverse.takeWhile (fun c => c ≠ '\n')).reverse :=
        List.drop_left _ _

theorem drop_nlSpan_no_nl (run : List Char) :
    ∀ c ∈ run.drop (nlSpan run), c ≠ '\n' := by
  intro c hc
  rw [drop_nlSpan] at hc
  have := List.mem_takeWhile_imp (List.mem_reverse.mp hc)
  simpa using this

theorem nlSpan_pos {run : List Char} (h : '\n' ∈ run) : 1 ≤ nlSpan run := by
  have := takeWhile_ne_lt_length (List.mem_reverse.mpr h)
  simp only [nlSpan]
  simp only [List.length_reverse] at this
  omega

/-- Decomposition of the tail after a blank-line match: the whitespace run of
what remains contains no newline. -/
theorem runOf_drop_nlSpan (l : List Char) :
    runOf (l.drop (nlSpan (runOf l))) = (runOf l).drop (nlSpan (runOf l)) := by
  have hm : nlSpan (runOf l) ≤ (runOf l).length := nlSpan_le _
  have hsplit : l = runOf l ++ l.dropWhile isJsSpace := by
    simpa [runOf] using (List.takeWhile_append_dropWhile isJsSpace l).symm
  have hdrop : l.drop (nlSpan (runOf l)) =
      (runOf l).drop (nlSpan (runOf l)) ++ l.dropWhile isJsSpace := by
    set m := nlSpan (runOf l) with hmdef
    conv_lhs => rw [hsplit]
    rw [List.drop_append_eq_append_drop]
    rw [Nat.sub_eq_zero_of_le hm, List.drop_zero]
  rw [hdrop]
  unfold runOf
  rw [takeWhile_append_of_all (fun c hc => ?_) _]
  · rw [takeWhile_dropWhile_self]
    simp
  · exact List.mem_takeWhile_imp (List.mem_of_mem_drop hc)

theorem nlCount_runOf_drop_nlSpan (l : List Char) :
    nlCount (runOf (l.drop (nlSpan (runOf l)))) = 0 := by
  rw [runOf_drop_nlSpan]
  exact nlCount_eq_zero (drop_nlSpan_no_nl _)

theorem length_drop_nlSpan {c : Char} {rest : List Char} (hc : c = '\n') :
    ((c :: rest).drop (nlSpan (runOf (c :: rest)))).length < (c :: rest).length := by
  subst hc
  have hrun : runOf ('\n' :: rest) = '\n' :: runOf rest :=
    runOf_cons_pos nl_isJsSpace rest
  have hnl : '\n' ∈ runOf ('\n' :: rest) := by rw [hrun]; exact List.mem_cons_self _ _
  have h1 := nlSpan_pos hnl
  rw [List.length_drop]
  simp only [List.length_cons]
  omega

/-- H1: the whitespace run at the head of the collapsed output contains at
most two newlines, and never more than the input run did. -/
theorem collapseF_head_run :
    ∀ (fuel : Nat) (l : List Char), l.length ≤ fuel →
      nlCount (runOf (collapseF fuel l)) ≤ min 2 (nlCount (runOf l)) := by
  intro fuel
  induction fuel with
  | zero =>
    intro l hl
    have : l = [] := List.length_eq_zero.mp (Nat.le_zero.mp hl)
    subst this
    simp [collapseF, runOf, nlCount]
  | succ fuel ih =>
    intro l hl
    match l with
    | [] => simp [collapseF, runOf, nlCount]
    | c :: rest =>
      rw [collapseF]
      by_cases hcond : c = '\n' ∧ 3 ≤ nlCount (runOf (c :: rest))
      · rw [if_pos hcond]
        have ht : ((c :: rest).drop (nlSpan (runOf (c :: rest)))).length ≤ fuel := by
          have hlt := @length_drop_nlSpan _ rest hcond.1
          have hb : (c :: rest).length ≤ fuel + 1 := hl
          exact Nat.lt_succ_iff.mp (Nat.lt_of_lt_of_le hlt hb)
        have hrec := ih _ ht
        rw [nlCount_runOf_drop_nlSpan] at hrec
        have hz : nlCount (runOf (collapseF fuel
            ((c :: rest).drop (nlSpan (runOf (c :: rest)))))) = 0 :=
          Nat.le_zero.mp (hrec.trans (by norm_num))
        simp only [runOf_nl_cons, nlCount_nl_cons, hz]
        have h2 := hcond.2
        omega
      · rw [if_neg hcond]
        by_cases hc : c = '\n'
        · subst hc
          have hk : nlCount (runOf ('\n' :: rest)) < 3 := by
            rcases Nat.lt_or_ge (nlCount (runOf ('\n' :: rest))) 3 with h | h
            · exact h
            · exact absurd ⟨rfl, h⟩ hcond
          have hrec := ih rest (by simpa using Nat.le_of_succ_le_succ hl)
          simp only [runOf_nl_cons, nlCount_nl_cons] at hk ⊢
          omega
        · have hrec := ih rest (by simpa using Nat.le_of_succ_le_succ hl)
          by_cases hws : isJsSpace c = true
          · rw [runOf_cons_pos hws, nlCount_cons, runOf_cons_pos hws, nlCount_cons]
            rw [if_neg hc]
            omega
          · rw [Bool.not_eq_true] at hws
            rw [runOf_cons_neg hws, runOf_cons_neg hws]
            simp [nlCount]

theorem noTriple_cons_iff {c : Char} {rest : List Char} :
    noTriple (c :: rest) = true ↔
      (c = '\n' → nlCount (runOf (c :: rest)) < 3) ∧ noTriple rest = true := by
  by_cases hc : c = '\n' <;> simp [noTriple, hc]

theorem noTrail_cons_iff {a : Char} {X : List Char} :
    noTrail (a :: X) = true ↔
      (X.head? = some '\n' → isBlankChar a = false) ∧ noTrail X = true := by
  cases X with
  | nil => simp [noTrail]
  | cons b r =>
    by_cases hb : b = '\n' <;> simp [noTrail, hb]

/-- L2: the collapsed output contains no blank-line match anywhere. -/
theorem collapseF_noTriple :
    ∀ (fuel : Nat) (l : List Char), l.length ≤ fuel →
      noTriple (collapseF fuel l) = true := by
  intro fuel
  induction fuel with
  | zero =>
    intro l hl
    have : l = [] := List.length_eq_zero.mp (Nat.le_zero.mp hl)
    subst this
    simp [collapseF, noTriple]
  | succ fuel ih =>
    intro l hl
    match l with
    | [] => simp [collapseF, noTriple]
    | c :: rest =>
      rw [collapseF]
      by_cases hcond : c = '\n' ∧ 3 ≤ nlCount (runOf (c :: rest))
      · rw [if_pos hcond]
        have ht : ((c :: rest).drop (nlSpan (runOf (c :: rest)))).length ≤ fuel := by
          have hlt := @length_drop_nlSpan _ rest hcond.1
          have hb : (c :: rest).length ≤ fuel + 1 := hl
          exact Nat.lt_succ_iff.mp (Nat.lt_of_lt_of_le hlt hb)
        have hrec := collapseF_head_run fuel _ ht
        rw [nlCount_runOf_drop_nlSpan] at hrec
        have hz : nlCount (runOf (collapseF fuel
            ((c :: rest).drop (nlSpan (runOf (c :: rest)))))) = 0 :=
          Nat.le_zero.mp (hrec.trans (by norm_num))
        have hX := ih _ ht
        rw [noTriple_cons_iff, noTriple_cons_iff]
        refine ⟨?_, ?_, hX⟩
        · intro _
          simp only [runOf_nl_cons, nlCount_nl_cons, hz]
          omega
        · intro _
          simp only [runOf_nl_cons, nlCount_nl_cons, hz]
          omega
      · rw [if_neg hcond]
        have hrest : rest.length ≤ fuel := by
          simp only [List.length_cons] at hl
          omega
        rw [noTriple_cons_iff]
        refine ⟨?_, ih rest hrest⟩
        intro hc
        subst hc
        have hk : nlCount (runOf ('\n' :: rest)) < 3 := by
          rcases Nat.lt_or_ge (nlCount (runOf ('\n' :: rest))) 3 with h | h
          · exact h
          · exact absurd ⟨rfl, h⟩ hcond
        have hrec := collapseF_head_run fuel rest hrest
        simp only [runOf_nl_cons, nlCount_nl_cons] at hk ⊢
        omega

/-- L1a: collapsing is the identity on triple-free content. -/
theorem collapseF_id_of_noTriple :
    ∀ (fuel : Nat) (l : List Char), l.length ≤ fuel → noTriple l = true →
      collapseF fuel l = l := by
  intro fuel
  induction fuel with
  | zero =>
    intro l hl _
    have : l = [] := List.length_eq_zero.mp (Nat.le_zero.mp hl)
    subst this
    simp [collapseF]
  | succ fuel ih =>
    intro l hl hnt
    match l with
    | [] => simp [collapseF]
    | c :: rest =>
      rw [collapseF]
      obtain ⟨hguard, htail⟩ := noTriple_cons_iff.mp hnt
      have hcond : ¬(c = '\n' ∧ 3 ≤ nlCount (runOf (c :: rest))) := by
        rintro ⟨hc, hge⟩
        exact absurd (hguard hc) (by omega)
      rw [if_neg hcond]
      have hrest : rest.length ≤ fuel := by
        simp only [List.length_cons] at hl
        omega
      rw [ih rest hrest htail]

theorem take_length_takeWhile (p : Char → Bool) (l : List Char) :
    l.take (l.takeWhile p).length = l.takeWhile p := by
  set k := (l.takeWhile p).length with hk
  conv_lhs => rw [← List.takeWhile_append_dropWhile p l]
  rw [hk]
  exact List.take_left _ _

theorem eq_takeWhile_append_drop (p : Char → Bool) (l : List Char) :
    l = l.takeWhile p ++ l.drop (l.takeWhile p).length := by
  conv_lhs => rw [← List.take_append_drop (l.takeWhile p).length l]
  rw [take_length_takeWhile]

theorem blankRun_cons {c : Char} {rest : List Char} (hb : isBlankChar c = true) :
    (c :: rest).takeWhile isBlankChar = c :: rest.takeWhile isBlankChar := by
  simp [List.takeWhile_cons, hb]

theorem blankRun_no_nl (l : List Char) :
    nlCount (l.takeWhile isBlankChar) = 0 :=
  nlCount_eq_zero (fun c hc => blank_ne_nl (List.mem_takeWhile_imp hc))

theorem blankRun_all_space (l : List Char) :
    ∀ c ∈ l.takeWhile isBlankChar, isJsSpace c = true :=
  fun c hc => blank_isJsSpace (List.mem_takeWhile_imp hc)

/-- The decomposition used by the trailing-blank pass at a blank head:
the input splits as the maximal blank run followed by the remainder. -/
theorem stripTW_decomp {c : Char} (rest : List Char) (hb : isBlankChar c = true) :
    c :: rest =
      (c :: rest).takeWhile isBlankChar ++
      (c :: rest).drop ((c :: rest).takeWhile isBlankChar).length :=
  eq_takeWhile_append_drop isBlankChar (c :: rest)

theorem head_eq_of_head?_cons {d : List Char} {a : Char}
    (h : d.head? = some a) : d = a :: d.tail := by
  cases d with
  | nil => simp at h
  | cons x xs =>
    simp only [List.head?_cons, Option.some.injEq] at h
    simp [h]

/-- H2: the trailing-blank pass never increases the newline count of the
leading whitespace run. -/
theorem stripTWF_head_run :
    ∀ (fuel : Nat) (l : List Char), l.length ≤ fuel →
      nlCount (runOf (stripTWF fuel l)) ≤ nlCount (runOf l) := by
  intro fuel
  induction fuel with
  | zero =>
    intro l hl
    have : l = [] := List.length_eq_zero.mp (Nat.le_zero.mp hl)
    subst this
    simp [stripTWF]
  | succ fuel ih =>
    intro l hl
    match l with
    | [] => simp [stripTWF]
    | c :: rest =>
      rw [stripTWF]
      by_cases hb : isBlankChar c = true
      · rw [if_pos hb]
        simp only []
        by_cases hdnl : ((c :: rest).drop
            ((c :: rest).takeWhile isBlankChar).length).head? = some '\n'
        · rw [if_pos hdnl]
          set d := (c :: rest).drop ((c :: rest).takeWhile isBlankChar).length
            with hd
          have hdc : d = '\n' :: d.tail := head_eq_of_head?_cons hdnl
          have hsplit : c :: rest =
              (c :: rest).takeWhile isBlankChar ++ ('\n' :: d.tail) := by
            rw [← hdc]
            exact stripTW_decomp rest hb
          have hlen : d.tail.length ≤ fuel := by
            have h1 : d.length ≤ rest.length := by
              rw [hd]
              have hrun : ((c :: rest).takeWhile isBlankChar).length ≥ 1 := by
                rw [blankRun_cons hb]
                simp
              rw [List.length_drop]
              simp only [List.length_cons]
              omega
            have h2 : d.tail.length + 1 = d.length := by
              conv_rhs => rw [hdc]
              simp
            simp only [List.length_cons] at hl
            omega
          have hcount : nlCount (runOf (c :: rest)) =
              nlCount (runOf ('\n' :: d.tail)) := by
            conv_lhs => rw [hsplit]
            unfold runOf
            rw [takeWhile_append_of_all (blankRun_all_space _) _]
            rw [nlCount_append, blankRun_no_nl]
            simp [runOf]
          rw [hcount, runOf_nl_cons, runOf_nl_cons, nlCount_nl_cons,
            nlCount_nl_cons]
          have := ih d.tail hlen
          omega
        · rw [if_neg hdnl]
          have hws : isJsSpace c = true := blank_isJsSpace hb
          have hrest : rest.length ≤ fuel := by
            simp only [List.length_cons] at hl
            omega
          rw [runOf_cons_pos hws, runOf_cons_pos hws, nlCount_cons, nlCount_cons]
          have := ih rest hrest
          omega
      · rw [if_neg hb]
        have hrest : rest.length ≤ fuel := by
          simp only [List.length_cons] at hl
          omega
        by_cases hws : isJsSpace c = true
        · rw [runOf_cons_pos hws, runOf_cons_pos hws, nlCount_cons, nlCount_cons]
          have := ih rest hrest
          omega
        · rw [Bool.not_eq_true] at hws
          rw [runOf_cons_neg hws, runOf_cons_neg hws]

theorem noTriple_tail {c : Char} {rest : List Char}
    (h : noTriple (c :: rest) = true) : noTriple rest = true :=
  (noTriple_cons_iff.mp h).2

theorem noTriple_drop {l : List Char} (h : noTriple l = true) :
    ∀ n, noTriple (l.drop n) = true := by
  induction l with
  | nil => intro n; simp [h]
  | cons c rest ih =>
    intro n
    cases n with
    | zero => exact h
    | succ n => exact ih (noTriple_tail h) n

/-- L4: the trailing-blank pass preserves triple-freeness. -/
theorem stripTWF_noTriple :
    ∀ (fuel : Nat) (l : List Char), l.length ≤ fuel → noTriple l = true →
      noTriple (stripTWF fuel l) = true := by
  intro fuel
  induction fuel with
  | zero =>
    intro l hl h
    have : l = [] := List.length_eq_zero.mp (Nat.le_zero.mp hl)
    subst this
    simpa [stripTWF] using h
  | succ fuel ih =>
    intro l hl hnt
    match l with
    | [] => simp [stripTWF, noTriple]
    | c :: rest =>
      rw [stripTWF]
      have hrest : rest.length ≤ fuel := by
        simp only [List.length_cons] at hl
        omega
      by_cases hb : isBlankChar c = true
      · rw [if_pos hb]
        simp only []
        by_cases hdnl : ((c :: rest).drop
            ((c :: rest).takeWhile isBlankChar).length).head? = some '\n'
        · rw [if_pos hdnl]
          set d := (c :: rest).drop ((c :: rest).takeWhile isBlankChar).length
            with hd
          have hdc : d = '\n' :: d.tail := head_eq_of_head?_cons hdnl
          have hlen : d.tail.length ≤ fuel := by
            have h1 : d.length ≤ rest.length := by
              rw [hd]
              have hrun : ((c :: rest).takeWhile isBlankChar).length ≥ 1 := by
                rw [blankRun_cons hb]
                simp
              rw [List.length_drop]
              simp only [List.length_cons]
              omega
            have h2 : d.tail.length + 1 = d.length := by
              conv_rhs => rw [hdc]
              simp
            omega
          have hntd : noTriple d = true := noTriple_drop hnt _
          rw [hdc] at hntd
          have hguard := (noTriple_cons_iff.mp hntd).1 rfl
          have hnttail : noTriple d.tail = true := noTriple_tail hntd
          rw [noTriple_cons_iff]
          refine ⟨?_, ih d.tail hlen hnttail⟩
          intro _
          have hrun := stripTWF_head_run fuel d.tail hlen
          rw [runOf_nl_cons, nlCount_nl_cons] at hguard ⊢
          omega
        · rw [if_neg hdnl]
          rw [noTriple_cons_iff]
          refine ⟨?_, ih rest hrest (noTriple_tail hnt)⟩
          intro hc
          exact absurd (hc ▸ hb) (by decide)
      · rw [if_neg hb]
        rw [noTriple_cons_iff]
        refine ⟨?_, ih rest hrest (noTriple_tail hnt)⟩
        intro hc
        subst hc
        have hguard := (noTriple_cons_iff.mp hnt).1 rfl
        have hrun := stripTWF_head_run fuel rest hrest
        rw [runOf_nl_cons, nlCount_nl_cons] at hguard ⊢
        omega

/-- L3: after the trailing-blank pass, no blank directly precedes a newline. -/
theorem stripTWF_noTrail :
    ∀ (fuel : Nat) (l : List Char), l.length ≤ fuel →
      noTrail (stripTWF fuel l) = true := by
  intro fuel
  induction fuel with
  | zero =>
    intro l hl
    have : l = [] := List.length_eq_zero.mp (Nat.le_zero.mp hl)
    subst this
    simp [stripTWF, noTrail]
  | succ fuel ih =>
    intro l hl
    match l with
    | [] => simp [stripTWF, noTrail]
    | c :: rest =>
      rw [stripTWF]
      have hrest : rest.length ≤ fuel := by
        simp only [List.length_cons] at hl
        omega
      by_cases hb : isBlankChar c = true
      · rw [if_pos hb]
        simp only []
        by_cases hdnl : ((c :: rest).drop
            ((c :: rest).takeWhile isBlankChar).length).head? = some '\n'
        · rw [if_pos hdnl]
          set d := (c :: rest).drop ((c :: rest).takeWhile isBlankChar).length
            with hd
          have hdc : d = '\n' :: d.tail := head_eq_of_head?_cons hdnl
          have hlen : d.tail.length ≤ fuel := by
            have h1 : d.length ≤ rest.length := by
              rw [hd]
              have hrun : ((c :: rest).takeWhile isBlankChar).length ≥ 1 := by
                rw [blankRun_cons hb]
                simp
              rw [List.length_drop]
              simp only [List.length_cons]
              omega
            have h2 : d.tail.length + 1 = d.length := by
              conv_rhs => rw [hdc]
              simp
            omega
          rw [noTrail_cons_iff]
          exact ⟨fun _ => by decide, ih d.tail hlen⟩
        · rw [if_neg hdnl]
          rw [noTrail_cons_iff]
          refine ⟨?_, ih rest hrest⟩
          intro hhead
          exfalso
          -- the character after the blank run of `rest` is not a newline, so
          -- the stripped tail cannot start with one while `c` is blank
          match rest, hrest, hdnl, hhead with
          | [], _, _, hhead =>
            cases fuel with
            | zero => simp [stripTWF] at hhead
            | succ fuel => simp [stripTWF] at hhead
          | e :: rest2, hrest, hdnl, hhead =>
            cases fuel with
            | zero => simp at hrest
            | succ fuel =>
              rw [stripTWF] at hhead
              by_cases hbe : isBlankChar e = true
              · rw [if_pos hbe] at hhead
                simp only [] at hhead
                have hsame : (e :: rest2).drop
                    ((e :: rest2).takeWhile isBlankChar).length =
                    (c :: e :: rest2).drop
                    ((c :: e :: rest2).takeWhile isBlankChar).length := by
                  rw [blankRun_cons hb]
                  simp
                by_cases hdnl2 : ((e :: rest2).drop
                    ((e :: rest2).takeWhile isBlankChar).length).head? = some '\n'
                · rw [hsame] at hdnl2
                  exact hdnl hdnl2
                · rw [if_neg hdnl2] at hhead
                  simp only [List.head?_cons, Option.some.injEq] at hhead
                  exact blank_ne_nl hbe hhead
              · rw [if_neg hbe] at hhead
                simp only [List.head?_cons, Option.some.injEq] at hhead
                subst hhead
                -- then the blank run of `c :: rest` is just `[c]` and the
                -- character after it is the newline `e`, contradicting `hdnl`
                apply hdnl
                rw [blankRun_cons hb]
                have : (('\n' : Char) :: rest2).takeWhile isBlankChar = [] := by
                  simp [List.takeWhile_cons]
                  decide
                rw [this]
                simp
      · rw [if_neg hb]
        rw [noTrail_cons_iff]
        refine ⟨fun _ => by simpa using hb, ih rest hrest⟩

theorem noTrail_tail {a : Char} {X : List Char}
    (h : noTrail (a :: X) = true) : noTrail X = true :=
  (noTrail_cons_iff.mp h).2

/-- A blank directly in front of a newline, possibly through a run of further
blanks, violates `noTrail`. -/
theorem noTrail_no_blank_before_nl :
    ∀ (R : List Char) (a : Char) (rest2 : List Char), isBlankChar a = true →
      (∀ b ∈ R, isBlankChar b = true) →
      noTrail (a :: (R ++ '\n' :: rest2)) = false := by
  intro R
  induction R with
  | nil =>
    intro a rest2 ha _
    simp [noTrail, ha]
  | cons b R' ih =>
    intro a rest2 ha hR
    have hb : isBlankChar b = true := hR b (by simp)
    have hbn : ¬ b = '\n' := blank_ne_nl hb
    simp only [List.cons_append, noTrail, if_neg hbn, Bool.true_and]
    exact ih b rest2 hb (fun x hx => hR x (by simp [hx]))

/-- L1b: the trailing-blank pass is the identity on trail-free content. -/
theorem stripTWF_id_of_noTrail :
    ∀ (fuel : Nat) (l : List Char), l.length ≤ fuel → noTrail l = true →
      stripTWF fuel l = l := by
  intro fuel
  induction fuel with
  | zero =>
    intro l hl _
    have : l = [] := List.length_eq_zero.mp (Nat.le_zero.mp hl)
    subst this
    simp [stripTWF]
  | succ fuel ih =>
    intro l hl hnt
    match l with
    | [] => simp [stripTWF]
    | c :: rest =>
      rw [stripTWF]
      have hrest : rest.length ≤ fuel := by
        simp only [List.length_cons] at hl
        omega
      by_cases hb : isBlankChar c = true
      · rw [if_pos hb]
        simp only []
        by_cases hdnl : ((c :: rest).drop
            ((c :: rest).takeWhile isBlankChar).length).head? = some '\n'
        · exfalso
          set d := (c :: rest).drop ((c :: rest).takeWhile isBlankChar).length
            with hd
          have hdc : d = '\n' :: d.tail := head_eq_of_head?_cons hdnl
          have hsplit0 : c :: rest =
              ((c :: rest).takeWhile isBlankChar) ++ ('\n' :: d.tail) := by
            conv_lhs => rw [stripTW_decomp rest hb]
            rw [← hdc]
          have hsplit : c :: rest =
              (c :: (rest.takeWhile isBlankChar)) ++ ('\n' :: d.tail) := by
            rw [← blankRun_cons hb]
            exact hsplit0
          have hrest_eq : rest = rest.takeWhile isBlankChar ++ '\n' :: d.tail := by
            have := hsplit
            simp only [List.cons_append] at this
            exact (List.cons.inj this).2
          have hv := noTrail_no_blank_before_nl (rest.takeWhile isBlankChar)
            c d.tail hb (fun x hx => List.mem_takeWhile_imp hx)
          rw [← hrest_eq] at hv
          rw [hv] at hnt
          exact Bool.false_ne_true hnt
        · rw [if_neg hdnl]
          rw [ih rest hrest (noTrail_tail hnt)]
      · rw [if_neg hb]
        rw [ih rest hrest (noTrail_tail hnt)]

/-! ### Whitespace passes create no new characters and comment passes are
the identity on slash-free content. -/

theorem collapseF_subset :
    ∀ (fuel : Nat) (l : List Char) (x : Char), x ∈ collapseF fuel l →
      x = '\n' ∨ x ∈ l := by
  intro fuel
  induction fuel with
  | zero => intro l x hx; exact Or.inr hx
  | succ fuel ih =>
    intro l x hx
    match l with
    | [] => simp [collapseF] at hx
    | c :: rest =>
      rw [collapseF] at hx
      by_cases hcond : c = '\n' ∧ 3 ≤ nlCount (runOf (c :: rest))
      · rw [if_pos hcond] at hx
        rcases List.mem_cons.mp hx with rfl | hx
        · exact Or.inl rfl
        rcases List.mem_cons.mp hx with rfl | hx
        · exact Or.inl rfl
        rcases ih _ x hx with h | h
        · exact Or.inl h
        · exact Or.inr (List.mem_of_mem_drop h)
      · rw [if_neg hcond] at hx
        rcases List.mem_cons.mp hx with rfl | hx
        · exact Or.inr (by simp)
        rcases ih rest x hx with h | h
        · exact Or.inl h
        · exact Or.inr (by simp [h])

theorem stripTWF_subset :
    ∀ (fuel : Nat) (l : List Char) (x : Char), x ∈ stripTWF fuel l →
      x = '\n' ∨ x ∈ l := by
  intro fuel
  induction fuel with
  | zero => intro l x hx; exact Or.inr hx
  | succ fuel ih =>
    intro l x hx
    match l with
    | [] => simp [stripTWF] at hx
    | c :: rest =>
      rw [stripTWF] at hx
      by_cases hb : isBlankChar c = true
      · rw [if_pos hb] at hx
        simp only [] at hx
        by_cases hdnl : ((c :: rest).drop
            ((c :: rest).takeWhile isBlankChar).length).head? = some '\n'
        · rw [if_pos hdnl] at hx
          rcases List.mem_cons.mp hx with rfl | hx
          · exact Or.inl rfl
          rcases ih _ x hx with h | h
          · exact Or.inl h
          · exact Or.inr (List.mem_of_mem_drop (List.mem_of_mem_drop (by
              have : ((c :: rest).drop
                  ((c :: rest).takeWhile isBlankChar).length).tail =
                  ((c :: rest).drop
                  ((c :: rest).takeWhile isBlankChar).length).drop 1 := by
                simp
              rw [this] at h
              exact h)))
        · rw [if_neg hdnl] at hx
          rcases List.mem_cons.mp hx with rfl | hx
          · exact Or.inr (by simp)
          rcases ih rest x hx with h | h
          · exact Or.inl h
          · exact Or.inr (by simp [h])
      · rw [if_neg hb] at hx
        rcases List.mem_cons.mp hx with rfl | hx
        · exact Or.inr (by simp)
        rcases ih rest x hx with h | h
        · exact Or.inl h
        · exact Or.inr (by simp [h])

theorem removeBlockF_id_of_noSlash :
    ∀ (fuel : Nat) (l : List Char), '/' ∉ l → removeBlockF fuel l = l := by
  intro fuel l
  induction fuel, l using removeBlockF.induct with
  | case1 l => intro _; rfl
  | case2 fuel => intro _; rfl
  | case3 fuel rest rest2 hdrop ih =>
    intro hs
    exact absurd (by simp : ('/' : Char) ∈ '/' :: '*' :: rest) hs
  | case4 fuel rest hdrop ih =>
    intro hs
    exact absurd (by simp : ('/' : Char) ∈ '/' :: '*' :: rest) hs
  | case5 fuel c rest h ih =>
    intro hs
    have hrest : '/' ∉ rest := fun hm => hs (by simp [hm])
    rw [removeBlockF.eq_def]
    split
    · rfl
    · next heq => exact absurd heq (by simp)
    · next n r heq1 heq2 =>
      obtain ⟨h1, h2⟩ := List.cons.inj heq2
      exact absurd h1 (fun hc => hs (by simp [hc]))
    · next a b f2 c2 r2 hno heq1 heq2 =>
      obtain ⟨hc1, hr1⟩ := List.cons.inj heq2
      have hf : fuel = f2 := Nat.succ.inj heq1
      subst hc1 hr1 hf
      rw [ih hrest]

theorem removeLineF_id_of_noSlash :
    ∀ (fuel : Nat) (l : List Char), '/' ∉ l → removeLineF fuel l = l := by
  intro fuel l
  induction fuel, l using removeLineF.induct with
  | case1 l => intro _; rfl
  | case2 fuel => intro _; rfl
  | case3 fuel rest ih =>
    intro hs
    exact absurd (by simp : ('/' : Char) ∈ '/' :: '/' :: rest) hs
  | case4 fuel c rest h ih =>
    intro hs
    have hrest : '/' ∉ rest := fun hm => hs (by simp [hm])
    rw [removeLineF.eq_def]
    split
    · rfl
    · next heq => exact absurd heq (by simp)
    · next r heq1 heq2 =>
      obtain ⟨h1, h2⟩ := List.cons.inj heq2
      exact absurd h1 (fun hc => hs (by simp [hc]))
    · next a b f2 c2 r2 hno heq1 heq2 =>
      obtain ⟨hc1, hr1⟩ := List.cons.inj heq2
      have hf : fuel = f2 := Nat.succ.inj heq1
      subst hc1 hr1 hf
      rw [ih hrest]

theorem removeBlockComments_id {l : List Char} (h : '/' ∉ l) :
    removeBlockComments l = l :=
  removeBlockF_id_of_noSlash _ _ h

theorem removeLineComments_id {l : List Char} (h : '/' ∉ l) :
    removeLineComments l = l :=
  removeLineF_id_of_noSlash _ _ h

theorem collapseBlankLines_noTriple (l : List Char) :
    noTriple (collapseBlankLines l) = true :=
  collapseF_noTriple _ _ le_rfl

theorem collapseBlankLines_id {l : List Char} (h : noTriple l = true) :
    collapseBlankLines l = l :=
  collapseF_id_of_noTriple _ _ le_rfl h

theorem stripTrailingWS_noTriple {l : List Char} (h : noTriple l = true) :
    noTriple (stripTrailingWS l) = true :=
  stripTWF_noTriple _ _ le_rfl h

theorem stripTrailingWS_noTrail (l : List Char) :
    noTrail (stripTrailingWS l) = true :=
  stripTWF_noTrail _ _ le_rfl

theorem stripTrailingWS_id {l : List Char} (h : noTrail l = true) :
    stripTrailingWS l = l :=
  stripTWF_id_of_noTrail _ _ le_rfl h

theorem stripTrailingWS_subset {l : List Char} {x : Char}
    (h : x ∈ stripTrailingWS l) : x = '\n' ∨ x ∈ l :=
  stripTWF_subset _ _ _ h

theorem collapseBlankLines_subset {l : List Char} {x : Char}
    (h : x ∈ collapseBlankLines l) : x = '\n' ∨ x ∈ l :=
  collapseF_subset _ _ _ h

/-- C6, amended: sanitization is idempotent on content containing no `/`
character (such content has no comment delimiters and its comment passes are
the identity, and the whitespace passes reach a fixed point after one
application); the original claim fails only because comment removal can
splice together a new comment, as in the counterexample. -/
theorem sanitizeContent_idem_of_noSlash (s : List Char) (hs : '/' ∉ s) :
    sanitizeContent (sanitizeContent s) = sanitizeContent s := by
  have h1 : sanitizeContent s = stripTrailingWS (collapseBlankLines s) := by
    unfold sanitizeContent
    rw [removeBlockComments_id hs, removeLineComments_id hs]
  have husub : '/' ∉ stripTrailingWS (collapseBlankLines s) := by
    intro hin
    rcases stripTrailingWS_subset hin with h | h
    · exact absurd h (by decide)
    · rcases collapseBlankLines_subset h with h2 | h2
      · exact absurd h2 (by decide)
      · exact hs h2
  have hTu : noTriple (stripTrailingWS (collapseBlankLines s)) = true :=
    stripTrailingWS_noTriple (collapseBlankLines_noTriple s)
  have hRu : noTrail (stripTrailingWS (collapseBlankLines s)) = true :=
    stripTrailingWS_noTrail _
  rw [h1]
  unfold sanitizeContent
  rw [removeBlockComments_id husub, removeLineComments_id husub,
    collapseBlankLines_id hTu, stripTrailingWS_id hRu]

/-- Concrete instantiation of `sanitizeContent_idem_of_noSlash` on a
slash-free input with a three-blank-line run and trailing blanks. -/
theorem sanitizeContent_idem_witness :
    ('/' ∉ ('a':: ' ':: '\n':: '\n':: '\n':: ' ':: '\n':: 'b'::[])) ∧
    sanitizeContent (sanitizeContent
        ('a':: ' ':: '\n':: '\n':: '\n':: ' ':: '\n':: 'b'::[])) =
      sanitizeContent ('a':: ' ':: '\n':: '\n':: '\n':: ' ':: '\n':: 'b'::[]) :=
  ⟨by decide, sanitizeContent_idem_of_noSlash _ (by decide)⟩

/-! ## Context extraction (`_extractCodeContext`, src/index.ts lines 202-227) -/

/-- `FileInfo` of src/index.ts: the summary data `_analyzeFile` returns. -/
structure FileInfo where
  summary : List Char
  exportedItems : List (List Char)

/-- Stable insertion into a size-sorted list: an element moves in front of
the first strictly larger element, staying behind equal sizes already
present only when they came earlier.  Used to model the ES2019-stable
`codeContexts.sort((a, b) => a.size - b.size)`. -/
def insertBySize (x : CodeContext) : List CodeContext → List CodeContext
  | [] => [x]
  | y :: ys => if y.size < x.size then y :: insertBySize x ys else x :: y :: ys

/-- The stable ascending-by-`size` sort of `_extractCodeContext`; a stable
sort under a consistent comparator is unique, so insertion sort models the
JavaScript engine sort exactly. -/
def sortBySize : List CodeContext → List CodeContext
  | [] => []
  | x :: xs => insertBySize x (sortBySize xs)

/-- `_extractCodeContext` (src/index.ts lines 202-227) on the files that were
read successfully, abstracting over `_analyzeFile` (whose summary fields do
not affect the claims): each file yields a `CodeContext` whose `content` is
the sanitized text but whose `size` is `content.length` of the raw text; the
list is then sorted ascending by `size`. -/
def extractCodeContext (analyzeFile : List Char → List Char → FileInfo)
    (files : List (List Char × List Char)) : List CodeContext :=
  sortBySize (files.map (fun fc =>
    { file := fc.1
      summary := (analyzeFile fc.1 fc.2).summary
      exportedItems := (analyzeFile fc.1 fc.2).exportedItems
      content := sanitizeContent fc.2
      size := fc.2.length }))

/-- A trivial `_analyzeFile` stand-in for concrete examples. -/
def exAnalyze : List Char → List Char → FileInfo := fun _ _ => ⟨[], []⟩

/-- C7, counterexample: for the file content `//x` + newline + `a` (5
characters), the recorded `size` is 5, the raw length, while the sanitized
`content` field has length 2 — `size` is not the sanitized length. -/
theorem extractCodeContext_size_cex :
    (extractCodeContext exAnalyze
        [("a.ts".toList, ('/':: '/':: 'x':: '\n':: 'a'::[]))]).map
      (fun ctx => (ctx.size, ctx.content.length)) = [(5, 2)] ∧ (5 : Nat) ≠ 2 := by
  constructor
  · decide
  · decide

theorem mem_insertBySize {x ctx : CodeContext} :
    ∀ {l : List CodeContext}, ctx ∈ insertBySize x l → ctx = x ∨ ctx ∈ l := by
  intro l
  induction l with
  | nil => intro h; simpa [insertBySize] using h
  | cons y ys ih =>
    intro h
    rw [insertBySize] at h
    by_cases hc : y.size < x.size
    · rw [if_pos hc] at h
      rcases List.mem_cons.mp h with rfl | h
      · exact Or.inr (by simp)
      · rcases ih h with h2 | h2
        · exact Or.inl h2
        · exact Or.inr (by simp [h2])
    · rw [if_neg hc] at h
      rcases List.mem_cons.mp h with rfl | h
      · exact Or.inl rfl
      · exact Or.inr h

theorem mem_sortBySize {ctx : CodeContext} :
    ∀ {l : List CodeContext}, ctx ∈ sortBySize l → ctx ∈ l := by
  intro l
  induction l with
  | nil => intro h; simpa [sortBySize] using h
  | cons x xs ih =>
    intro h
    rw [sortBySize] at h
    rcases mem_insertBySize h with rfl | h
    · simp
    · simp [ih h]

/-- C7, amended: for every successfully processed file, the recorded `size`
is the character length of the file's original (unsanitized) content, while
the `content` field holds the sanitized text; the two lengths coincide only
when sanitization removes nothing. -/
theorem extractCodeContext_size_original
    (analyzeFile : List Char → List Char → FileInfo)
    (files : List (List Char × List Char)) :
    ∀ ctx ∈ extractCodeContext analyzeFile files,
      ∃ fc ∈ files, ctx.content = sanitizeContent fc.2 ∧
        ctx.size = fc.2.length := by
  intro ctx hctx
  have hmem := mem_sortBySize hctx
  rcases List.mem_map.mp hmem with ⟨fc, hfc, heq⟩
  exact ⟨fc, hfc, by rw [← heq], by rw [← heq]⟩

/-- Concrete instantiation of `extractCodeContext_size_original` on a
single one-character file. -/
theorem extractCodeContext_size_original_witness :
    ∃ fc ∈ [("b.ts".toList, ('a'::[]))],
      (CodeContext.mk "b.ts".toList [] [] ('a'::[]) 1).content =
        sanitizeContent fc.2 ∧
      (CodeContext.mk "b.ts".toList [] [] ('a'::[]) 1).size = fc.2.length := by
  have hm : (CodeContext.mk "b.ts".toList [] [] ('a'::[]) 1) ∈
      extractCodeContext exAnalyze [("b.ts".toList, ('a'::[]))] := by decide
  exact extractCodeContext_size_original exAnalyze
    [("b.ts".toList, ('a'::[]))] _ hm

/-! ## Response parsing (`_parseGeneratedTests`, src/index.ts lines 463-479)

The pattern
`/(three backticks)(?:typescript|javascript|ts|js)?\s*\/\/\s*\[Filename:\s*([\w\-\.\/]+)\]\s*([\s\S]*?)(three backticks)/g`
is executed in a loop; each `\s*` gap is followed by a character that is
never whitespace and each greedy character-class run is followed by a
character outside its class, so every step of the backtracking search is
deterministic: skip maximal whitespace, demand a literal, take a maximal
class run, and let the lazy body extend to the first closing fence. -/

/-- `TestFile` of src/index.ts: one parsed artifact. -/
structure TestFile where
  filename : List Char
  content : List Char
deriving DecidableEq, Repr

/-- Match a literal at the head of the input, returning the remainder. -/
def litPrefix : List Char → List Char → Option (List Char)
  | [], l => some l
  | _ :: _, [] => none
  | p :: ps, c :: cs => if p = c then litPrefix ps cs else none

/-- `\s*` before a non-whitespace literal: skip the maximal whitespace run. -/
def skipSpaces (l : List Char) : List Char := l.dropWhile isJsSpace

/-- The lazy body `([\s\S]*?)` up to the first closing fence: split at the
first occurrence of three backticks. -/
def splitFence : List Char → Option (List Char × List Char)
  | '`' :: '`' :: '`' :: rest => some ([], rest)
  | c :: rest => (splitFence rest).map (fun pr => (c :: pr.1, pr.2))
  | [] => none

/-- The part of the pattern after the fence and optional language tag:
`\s* // \s* [Filename: \s* ([\w\-\.\/]+) ] \s* ([\s\S]*?) fence`.
Returns the captured name, the captured raw body, and the text after the
match. -/
def matchTail (l : List Char) : Option (List Char × List Char × List Char) :=
  (litPrefix ('/':: '/'::[]) (skipSpaces l)).bind (fun l2 =>
    (litPrefix "[Filename:".toList (skipSpaces l2)).bind (fun l4 =>
      let l5 := skipSpaces l4
      let name := l5.takeWhile isNameChar
      if name.isEmpty then none
      else
        (litPrefix (']'::[]) (l5.drop name.length)).bind (fun l7 =>
          (splitFence (skipSpaces l7)).map (fun pr => (name, pr.1, pr.2)))))

/-- The alternatives of `(?:typescript|javascript|ts|js)?` in the order the
regex engine tries them, the empty alternative last. -/
def langAlts : List (List Char) :=
  ["typescript".toList, "javascript".toList, "ts".toList, "js".toList, []]

/-- Try each language alternative in order; backtracking moves to the next
alternative when the rest of the pattern fails. -/
def tryLangs : List (List Char) → List Char →
    Option (List Char × List Char × List Char)
  | [], _ => none
  | lang :: more, r =>
    match litPrefix lang r with
    | some r2 =>
      match matchTail r2 with
      | some res => some res
      | none => tryLangs more r
    | none => tryLangs more r

/-- One attempt of the whole pattern at the current position. -/
def matchAt (l : List Char) : Option (List Char × List Char × List Char) :=
  match litPrefix ('`':: '`':: '`'::[]) l with
  | none => none
  | some r => tryLangs langAlts r

/-- The `exec` loop of `_parseGeneratedTests`: find the leftmost match at or
after the current position, emit `(match[1].trim(), match[2].trim())`, and
continue after the match.  The fuel (the input length in the wrapper) makes
the recursion structural. -/
def parseLoopF : Nat → List Char → List TestFile
  | 0, _ => []
  | fuel + 1, l =>
    match l with
    | [] => []
    | c :: rest =>
      match matchAt (c :: rest) with
      | some (name, body, after) =>
        ⟨jsTrim name, jsTrim body⟩ :: parseLoopF fuel after
      | none => parseLoopF fuel rest

/-- `_parseGeneratedTests` (src/index.ts lines 463-479). -/
def parseGeneratedTests (aiResponse : List Char) : List TestFile :=
  parseLoopF aiResponse.length aiResponse

theorem litPrefix_length :
    ∀ {p l r : List Char}, litPrefix p l = some r → r.length + p.length = l.length := by
  intro p
  induction p with
  | nil =>
    intro l r h
    rw [litPrefix] at h
    cases h
    simp
  | cons a ps ih =>
    intro l r h
    match l with
    | [] => rw [litPrefix] at h; cases h
    | c :: cs =>
      rw [litPrefix] at h
      by_cases hc : a = c
      · rw [if_pos hc] at h
        have := ih h
        simp only [List.length_cons]
        omega
      · rw [if_neg hc] at h
        cases h

theorem skipSpaces_length (l : List Char) : (skipSpaces l).length ≤ l.length := by
  induction l with
  | nil => simp [skipSpaces]
  | cons c rest ih =>
    by_cases h : isJsSpace c = true
    · simp only [skipSpaces, List.dropWhile_cons, h, if_true] at ih ⊢
      simp only [List.length_cons]
      omega
    · rw [Bool.not_eq_true] at h
      simp [skipSpaces, List.dropWhile_cons, h]

theorem splitFence_length :
    ∀ {l : List Char} {pr : List Char × List Char}, splitFence l = some pr →
      pr.2.length + 3 ≤ l.length := by
  intro l
  induction l using splitFence.induct with
  | case1 rest =>
    intro pr h
    rw [splitFence] at h
    cases h
    simp
  | case2 c rest h ih =>
    intro pr hpr
    have he : splitFence (c :: rest) =
        (splitFence rest).map (fun pr => (c :: pr.1, pr.2)) := by
      rw [splitFence.eq_def]
      split
      · next r heq =>
        obtain ⟨hc, hr⟩ := List.cons.inj heq
        exact (h r hc hr).elim
      · next heq =>
        obtain ⟨hc, hr⟩ := List.cons.inj heq
        rw [← hc, ← hr]
      · next heq => exact absurd heq (by simp)
    rw [he] at hpr
    rcases Option.map_eq_some'.mp hpr with ⟨pr0, hpr0, hmap⟩
    have := ih hpr0
    subst hmap
    simp only [List.length_cons]
    omega
  | case3 =>
    intro pr h
    rw [splitFence] at h
    cases h

theorem matchTail_length :
    ∀ {l : List Char} {res : List Char × List Char × List Char},
      matchTail l = some res → res.2.2.length ≤ l.length := by
  intro l res h
  unfold matchTail at h
  rcases Option.bind_eq_some.mp h with ⟨l2, h2, h'⟩
  rcases Option.bind_eq_some.mp h' with ⟨l4, h4, h''⟩
  dsimp only [] at h''
  split at h''
  · cases h''
  · rcases Option.bind_eq_some.mp h'' with ⟨l7, h7, h3⟩
    rcases Option.map_eq_some'.mp h3 with ⟨pr, hpr, hres⟩
    subst hres
    show pr.2.length ≤ l.length
    have s1 := litPrefix_length h2
    have s2 := litPrefix_length h4
    have s3 := litPrefix_length h7
    have s4 := splitFence_length hpr
    have s5 := skipSpaces_length l
    have s6 := skipSpaces_length l2
    have s7 := skipSpaces_length l4
    have s8 := skipSpaces_length l7
    have s10 := List.length_drop
      ((skipSpaces l4).takeWhile isNameChar).length (skipSpaces l4)
    omega

theorem tryLangs_length :
    ∀ (alts : List (List Char)) {r : List Char}
      {res : List Char × List Char × List Char},
      tryLangs alts r = some res → res.2.2.length ≤ r.length := by
  intro alts
  induction alts with
  | nil => intro r res h; rw [tryLangs] at h; cases h
  | cons lang more ih =>
    intro r res h
    rw [tryLangs] at h
    split at h
    · next r2 h2 =>
      split at h
      · next res2 hres =>
        cases h
        have := matchTail_length hres
        have := litPrefix_length h2
        omega
      · exact ih h
    · exact ih h

theorem matchAt_length :
    ∀ {l : List Char} {res : List Char × List Char × List Char},
      matchAt l = some res → res.2.2.length + 3 ≤ l.length := by
  intro l res h
  unfold matchAt at h
  split at h
  · cases h
  · next r hr =>
    have h1 := litPrefix_length hr
    have h2 := tryLangs_length langAlts h
    have h3 : ('`':: '`':: '`'::([] : List Char)).length = 3 := rfl
    omega

theorem parseLoopF_irrel :
    ∀ (f1 : Nat) (l : List Char) (f2 : Nat), l.length ≤ f1 → l.length ≤ f2 →
      parseLoopF f1 l = parseLoopF f2 l := by
  intro f1
  induction f1 with
  | zero =>
    intro l f2 h1 _
    have : l = [] := List.length_eq_zero.mp (Nat.le_zero.mp h1)
    subst this
    cases f2 <;> rfl
  | succ f1 ih =>
    intro l f2 h1 h2
    match l with
    | [] => cases f2 <;> rfl
    | c :: rest =>
      match f2, h2 with
      | f2 + 1, h2 =>
        rw [parseLoopF, parseLoopF]
        split
        · next name body after hm =>
          have hlen := matchAt_length hm
          simp only [List.length_cons] at h1 h2 hlen
          rw [ih after f2 (by omega) (by omega)]
        · next hm =>
          simp only [List.length_cons] at h1 h2
          exact ih rest f2 (by omega) (by omega)

/-- Step equation: a match at the current position emits one artifact and
continues after the match. -/
theorem parse_match {l name body after : List Char}
    (h : matchAt l = some (name, body, after)) :
    parseGeneratedTests l =
      TestFile.mk (jsTrim name) (jsTrim body) :: parseGeneratedTests after := by
  match l with
  | [] =>
    exfalso
    unfold matchAt litPrefix at h
    cases h
  | c :: rest =>
    unfold parseGeneratedTests
    rw [show (c :: rest).length = rest.length + 1 by simp, parseLoopF]
    simp only [h]
    have hlen := matchAt_length h
    simp only [List.length_cons] at hlen
    rw [parseLoopF_irrel rest.length after after.length (by omega) le_rfl]

/-- Step equation: no match at the current position advances one character. -/
theorem parse_skip {c : Char} {rest : List Char}
    (h : matchAt (c :: rest) = none) :
    parseGeneratedTests (c :: rest) = parseGeneratedTests rest := by
  unfold parseGeneratedTests
  rw [show (c :: rest).length = rest.length + 1 by simp, parseLoopF]
  simp only [h]

theorem matchAt_cons_ne {c : Char} {rest : List Char} (h : ¬ c = '`') :
    matchAt (c :: rest) = none := by
  have h2 : ¬ ('`' = c) := fun he => h he.symm
  unfold matchAt
  simp only [litPrefix, if_neg h2]

/-- Backtick-free text preceding the rest of the input is skipped without
producing artifacts. -/
theorem parse_append_filler :
    ∀ {f : List Char}, '`' ∉ f → ∀ t,
      parseGeneratedTests (f ++ t) = parseGeneratedTests t := by
  intro f
  induction f with
  | nil => intro _ t; rfl
  | cons c f ih =>
    intro hf t
    have hc : ¬ c = '`' := fun h => hf (by simp [h])
    rw [List.cons_append, parse_skip (matchAt_cons_ne hc)]
    exact ih (fun hm => hf (by simp [hm])) t

theorem litPrefix_self_append :
    ∀ (p x : List Char), litPrefix p (p ++ x) = some x := by
  intro p
  induction p with
  | nil => intro x; rfl
  | cons a ps ih =>
    intro x
    rw [List.cons_append, litPrefix, if_pos rfl]
    exact ih x

theorem nameChar_not_space {c : Char} (h : isNameChar c = true) :
    isJsSpace c = false := by
  by_contra hs
  rw [Bool.not_eq_false] at hs
  simp only [isJsSpace, Bool.or_eq_true, Bool.and_eq_true,
    decide_eq_true_eq] at hs
  simp only [isNameChar, isWordChar, Bool.or_eq_true, Bool.and_eq_true,
    decide_eq_true_eq] at h
  rcases hs with (((((((((((((hc | hc) | hc) | hc) | hc) | hc) | hc) | hc) | ⟨hr1, hr2⟩) | hc) | hc) | hc) | hc) | hc) | hc
  case _ => subst hc; revert h; decide
  case _ => subst hc; revert h; decide
  case _ => subst hc; revert h; decide
  case _ => subst hc; revert h; decide
  case _ => subst hc; revert h; decide
  case _ => subst hc; revert h; decide
  case _ => subst hc; revert h; decide
  case _ => subst hc; revert h; decide
  case _ =>
    rcases h with (((((⟨h1, h2⟩ | ⟨h1, h2⟩) | ⟨h1, h2⟩) | rfl) | rfl) | rfl) | rfl
    · exact absurd (le_trans hr1 h2) (by decide)
    · exact absurd (le_trans hr1 h2) (by decide)
    · exact absurd (le_trans hr1 h2) (by decide)
    · exact absurd hr1 (by decide)
    · exact absurd hr1 (by decide)
    · exact absurd hr1 (by decide)
    · exact absurd hr1 (by decide)
  case _ => subst hc; revert h; decide
  case _ => subst hc; revert h; decide
  case _ => subst hc; revert h; decide
  case _ => subst hc; revert h; decide
  case _ => subst hc; revert h; decide
  case _ => subst hc; revert h; decide

theorem dropWhile_append_cases (p : Char → Bool) (a b : List Char) :
    List.dropWhile p (a ++ b) =
      if (List.dropWhile p a).isEmpty then List.dropWhile p b
      else List.dropWhile p a ++ b := by
  induction a with
  | nil => simp
  | cons c rest ih =>
    by_cases h : p c = true
    · simp only [List.cons_append, List.dropWhile_cons, h, if_true]
      exact ih
    · rw [Bool.not_eq_true] at h
      simp [List.dropWhile_cons, h]

theorem dropWhile_eq_self_of_none {p : Char → Bool} {l : List Char}
    (h : ∀ c ∈ l, p c = false) : List.dropWhile p l = l := by
  cases l with
  | nil => rfl
  | cons c rest => simp [List.dropWhile_cons, h c (by simp)]

theorem dropWhile_idem (p : Char → Bool) (l : List Char) :
    List.dropWhile p (List.dropWhile p l) = List.dropWhile p l := by
  induction l with
  | nil => rfl
  | cons c rest ih =>
    by_cases h : p c = true
    · simp only [List.dropWhile_cons, h, if_true]
      exact ih
    · rw [Bool.not_eq_true] at h
      simp [List.dropWhile_cons, h]

theorem splitFence_append :
    ∀ {w : List Char}, '`' ∉ w → ∀ t,
      splitFence (w ++ ('`':: '`':: '`'::t)) = some (w, t) := by
  intro w
  induction w with
  | nil => intro _ t; rfl
  | cons c w ih =>
    intro hw t
    have hc : ¬ c = '`' := fun h => hw (by simp [h])
    rw [List.cons_append, splitFence.eq_def]
    split
    · next r heq =>
      obtain ⟨h1, _⟩ := List.cons.inj heq
      exact absurd h1 hc
    · next heq =>
      obtain ⟨hc1, hr1⟩ := List.cons.inj heq
      rw [← hc1, ← hr1, ih (fun hm => hw (by simp [hm])) t]
      rfl
    · next heq => exact absurd heq (by simp)

theorem jsTrim_dropWhile (l : List Char) :
    jsTrim (List.dropWhile isJsSpace l) = jsTrim l := by
  unfold jsTrim trimLeft
  rw [dropWhile_idem]

theorem jsTrim_append_nl (body : List Char) :
    jsTrim (body ++ ('\n'::[])) = jsTrim body := by
  unfold jsTrim trimLeft
  rw [dropWhile_append_cases]
  by_cases h : (List.dropWhile isJsSpace body).isEmpty = true
  · rw [if_pos h]
    rw [List.isEmpty_iff.mp h]
    decide
  · rw [if_neg (by simpa using h)]
    rw [List.reverse_append]
    have : (('\n'::[]) : List Char).reverse = '\n'::[] := rfl
    rw [this]
    simp only [List.cons_append, List.nil_append, List.dropWhile_cons]
    rw [if_pos (by decide : isJsSpace '\n' = true)]

theorem jsTrim_id_of_no_space {l : List Char}
    (h : ∀ c ∈ l, isJsSpace c = false) : jsTrim l = l := by
  unfold jsTrim trimLeft
  rw [dropWhile_eq_self_of_none h,
    dropWhile_eq_self_of_none (fun c hc => h c (List.mem_reverse.mp hc)),
    List.reverse_reverse]

theorem mem_of_mem_dropWhile {p : Char → Bool} {l : List Char} {x : Char}
    (h : x ∈ List.dropWhile p l) : x ∈ l := by
  induction l with
  | nil => simpa using h
  | cons c rest ih =>
    by_cases hc : p c = true
    · rw [List.dropWhile_cons, if_pos hc] at h
      exact List.mem_cons_of_mem c (ih h)
    · rw [Bool.not_eq_true] at hc
      rw [List.dropWhile_cons, hc] at h
      simpa using h

/-- The tail of the pattern succeeds on a well-formed rendered marker line
followed by a backtick-free body and a closing fence, capturing exactly the
name and the whitespace-trimmed-on-the-left body. -/
theorem matchTail_render {name body t : List Char}
    (hname : name ≠ []) (hchars : ∀ c ∈ name, isNameChar c = true)
    (hbody : '`' ∉ body) :
    matchTail ("\n// [Filename: ".toList ++
        (name ++ (']' :: '\n' :: (body ++ ('\n' :: '`' :: '`' :: '`' :: t))))) =
      some (name, List.dropWhile isJsSpace (body ++ ('\n' :: [])), t) := by
  have hns : ∀ c ∈ name, isJsSpace c = false :=
    fun c hc => nameChar_not_space (hchars c hc)
  unfold matchTail
  have e1 : litPrefix ('/':: '/'::[]) (skipSpaces ("\n// [Filename: ".toList ++
      (name ++ (']' :: '\n' :: (body ++ ('\n' :: '`' :: '`' :: '`' :: t)))))) =
      some (' ':: '[':: 'F':: 'i':: 'l':: 'e':: 'n':: 'a':: 'm':: 'e':: ':':: ' '::
        (name ++ (']' :: '\n' :: (body ++ ('\n' :: '`' :: '`' :: '`' :: t))))) := rfl
  rw [e1, Option.some_bind]
  have e2 : litPrefix "[Filename:".toList
      (skipSpaces (' ':: '[':: 'F':: 'i':: 'l':: 'e':: 'n':: 'a':: 'm':: 'e':: ':':: ' '::
        (name ++ (']' :: '\n' :: (body ++ ('\n' :: '`' :: '`' :: '`' :: t)))))) =
      some (' ' ::
        (name ++ (']' :: '\n' :: (body ++ ('\n' :: '`' :: '`' :: '`' :: t))))) := rfl
  rw [e2, Option.some_bind]
  have e3 : skipSpaces (' ' ::
      (name ++ (']' :: '\n' :: (body ++ ('\n' :: '`' :: '`' :: '`' :: t))))) =
      name ++ (']' :: '\n' :: (body ++ ('\n' :: '`' :: '`' :: '`' :: t))) := by
    show List.dropWhile isJsSpace
        (name ++ (']' :: '\n' :: (body ++ ('\n' :: '`' :: '`' :: '`' :: t)))) = _
    rw [dropWhile_append_cases, dropWhile_eq_self_of_none hns]
    rw [if_neg (by simpa using hname)]
  rw [e3]
  dsimp only []
  have e5 : (name ++ (']' :: '\n' ::
      (body ++ ('\n' :: '`' :: '`' :: '`' :: t)))).takeWhile isNameChar = name := by
    rw [takeWhile_append_of_all hchars]
    rw [show List.takeWhile isNameChar (']' :: '\n' ::
        (body ++ ('\n' :: '`' :: '`' :: '`' :: t))) = [] from rfl]
    simp
  rw [e5]
  rw [show name.isEmpty = false by simpa using hname]
  simp only [Bool.false_eq_true, if_false]
  rw [List.drop_left name]
  have e8 : litPrefix (']'::[])
      (']' :: '\n' :: (body ++ ('\n' :: '`' :: '`' :: '`' :: t))) =
      some ('\n' :: (body ++ ('\n' :: '`' :: '`' :: '`' :: t))) := rfl
  rw [e8, Option.some_bind]
  have e9 : skipSpaces ('\n' :: (body ++ ('\n' :: '`' :: '`' :: '`' :: t))) =
      List.dropWhile isJsSpace (body ++ ('\n' :: '`' :: '`' :: '`' :: t)) := rfl
  rw [e9]
  have hsplit : body ++ ('\n' :: '`' :: '`' :: '`' :: t) =
      (body ++ ('\n' :: [])) ++ ('`' :: '`' :: '`' :: t) := by
    rw [List.append_assoc]
    rfl
  rw [hsplit, dropWhile_append_cases]
  by_cases hw : (List.dropWhile isJsSpace (body ++ ('\n' :: []))).isEmpty = true
  · rw [if_pos hw]
    have e10 : List.dropWhile isJsSpace ('`' :: '`' :: '`' :: t) =
        '`' :: '`' :: '`' :: t := rfl
    rw [e10]
    have e11 : splitFence ('`' :: '`' :: '`' :: t) = some ([], t) := rfl
    rw [e11, Option.map_some']
    rw [List.isEmpty_iff.mp hw]
  · rw [if_neg hw]
    have hwb : '`' ∉ List.dropWhile isJsSpace (body ++ ('\n' :: [])) := by
      intro hin
      have := mem_of_mem_dropWhile hin
      rcases List.mem_append.mp this with h | h
      · exact hbody h
      · simp at h
    rw [splitFence_append hwb, Option.map_some']

/-- One well-formed fenced block of the generation response, §6 of the
request contract: fence, optional language tag, filename marker line, body,
closing fence. -/
structure GenBlock where
  lang : List Char
  name : List Char
  body : List Char

/-- The rendered text of one block. -/
def renderBlock (b : GenBlock) : List Char :=
  ('`':: '`':: '`'::[]) ++ b.lang ++ "\n// [Filename: ".toList ++ b.name ++
    (']' :: '\n' :: []) ++ b.body ++ ('\n' :: '`' :: '`' :: '`' :: [])

/-- Well-formedness: a language tag the pattern accepts (possibly empty), a
non-empty filename over the capture-group alphabet, and a body free of
backticks (so the lazy body stops at the real closing fence). -/
def validBlock (b : GenBlock) : Prop :=
  b.lang ∈ langAlts ∧ b.name ≠ [] ∧ (∀ c ∈ b.name, isNameChar c = true) ∧
    '`' ∉ b.body

instance (b : GenBlock) : Decidable (validBlock b) := by
  unfold validBlock
  infer_instance

theorem renderBlock_append (b : GenBlock) (t : List Char) :
    renderBlock b ++ t = ('`':: '`':: '`'::[]) ++ (b.lang ++
      ("\n// [Filename: ".toList ++
        (b.name ++ (']' :: '\n' :: (b.body ++ ('\n' :: '`' :: '`' :: '`' :: t)))))) := by
  simp [renderBlock, List.append_assoc]

theorem tryLangs_step_fail {lang r : List Char} {more : List (List Char)}
    (h : litPrefix lang r = none) :
    tryLangs (lang :: more) r = tryLangs more r := by
  rw [tryLangs, h]

theorem tryLangs_step_ok {lang r r2 : List Char} {more : List (List Char)}
    {res : List Char × List Char × List Char}
    (h1 : litPrefix lang r = some r2) (h2 : matchTail r2 = some res) :
    tryLangs (lang :: more) r = some res := by
  rw [tryLangs, h1]
  show (match matchTail r2 with
    | some res => some res
    | none => tryLangs more r) = some res
  rw [h2]

/-- The whole pattern matches at a rendered block, capturing the name and
raw body, and ends exactly at the closing fence. -/
theorem match_render {b : GenBlock} (hv : validBlock b) (t : List Char) :
    matchAt (renderBlock b ++ t) =
      some (b.name, List.dropWhile isJsSpace (b.body ++ ('\n' :: [])), t) := by
  obtain ⟨hlang, hname, hchars, hbody⟩ := hv
  rw [renderBlock_append]
  set R := "\n// [Filename: ".toList ++
    (b.name ++ (']' :: '\n' :: (b.body ++ ('\n' :: '`' :: '`' :: '`' :: t))))
    with hR
  have hmt : matchTail R =
      some (b.name, List.dropWhile isJsSpace (b.body ++ ('\n' :: [])), t) := by
    rw [hR]
    exact matchTail_render hname hchars hbody
  unfold matchAt
  rw [litPrefix_self_append ('`':: '`':: '`'::[])]
  show tryLangs langAlts (b.lang ++ R) =
    some (b.name, List.dropWhile isJsSpace (b.body ++ ('\n' :: [])), t)
  simp only [langAlts, List.mem_cons, List.not_mem_nil, or_false] at hlang
  rcases hlang with h | h | h | h | h
  all_goals rw [h]
  · rw [show langAlts = "typescript".toList :: ["javascript".toList,
      "ts".toList, "js".toList, []] from rfl]
    rw [tryLangs_step_ok (litPrefix_self_append "typescript".toList R) hmt]
  · have f1 : litPrefix "typescript".toList ("javascript".toList ++ R) = none := rfl
    rw [show langAlts = "typescript".toList :: ["javascript".toList,
      "ts".toList, "js".toList, []] from rfl]
    rw [tryLangs_step_fail f1]
    rw [show ["javascript".toList, "ts".toList, "js".toList, []] =
      "javascript".toList :: ["ts".toList, "js".toList, []] from rfl]
    rw [tryLangs_step_ok (litPrefix_self_append "javascript".toList R) hmt]
  · have f1 : litPrefix "typescript".toList ("ts".toList ++ R) = none := rfl
    have f2 : litPrefix "javascript".toList ("ts".toList ++ R) = none := rfl
    rw [show langAlts = "typescript".toList :: ["javascript".toList,
      "ts".toList, "js".toList, []] from rfl]
    rw [tryLangs_step_fail f1, tryLangs_step_fail f2]
    rw [show ["ts".toList, "js".toList, []] =
      "ts".toList :: ["js".toList, []] from rfl]
    rw [tryLangs_step_ok (litPrefix_self_append "ts".toList R) hmt]
  · have f1 : litPrefix "typescript".toList ("js".toList ++ R) = none := rfl
    have f2 : litPrefix "javascript".toList ("js".toList ++ R) = none := rfl
    have f3 : litPrefix "ts".toList ("js".toList ++ R) = none := rfl
    rw [show langAlts = "typescript".toList :: ["javascript".toList,
      "ts".toList, "js".toList, []] from rfl]
    rw [tryLangs_step_fail f1, tryLangs_step_fail f2, tryLangs_step_fail f3]
    rw [show ["js".toList, []] = "js".toList :: ([] : List Char) :: [] from rfl]
    rw [tryLangs_step_ok (litPrefix_self_append "js".toList R) hmt]
  · have f1 : litPrefix "typescript".toList (([] : List Char) ++ R) = none := by
      rw [hR]; rfl
    have f2 : litPrefix "javascript".toList (([] : List Char) ++ R) = none := by
      rw [hR]; rfl
    have f3 : litPrefix "ts".toList (([] : List Char) ++ R) = none := by
      rw [hR]; rfl
    have f4 : litPrefix "js".toList (([] : List Char) ++ R) = none := by
      rw [hR]; rfl
    rw [show langAlts = "typescript".toList :: ["javascript".toList,
      "ts".toList, "js".toList, []] from rfl]
    rw [tryLangs_step_fail f1, tryLangs_step_fail f2, tryLangs_step_fail f3,
      tryLangs_step_fail f4]
    rw [show ([([] : List Char)]) = ([] : List Char) :: [] from rfl]
    rw [tryLangs_step_ok (litPrefix_self_append [] R) hmt]

theorem parse_no_backtick {l : List Char} (h : '`' ∉ l) :
    parseGeneratedTests l = [] := by
  induction l with
  | nil => rfl
  | cons c rest ih =>
    have hc : ¬ c = '`' := fun hcc => h (by simp [hcc])
    rw [parse_skip (matchAt_cons_ne hc)]
    exact ih (fun hm => h (by simp [hm]))

/-- Interleavings of narrative filler and well-formed blocks. -/
def renderChunks : List (List Char × GenBlock) → List Char → List Char
  | [], final => final
  | (filler, b) :: more, final =>
    filler ++ (renderBlock b ++ renderChunks more final)

theorem tryLangs_step_miss {lang r r2 : List Char} {more : List (List Char)}
    (h1 : litPrefix lang r = some r2) (h2 : matchTail r2 = none) :
    tryLangs (lang :: more) r = tryLangs more r := by
  rw [tryLangs, h1]
  show (match matchTail r2 with
    | some res => some res
    | none => tryLangs more r) = tryLangs more r
  rw [h2]

/-- C8: the Response Parser emits exactly one artifact per filename-marked
fenced block, in order of appearance, carrying the literal captured filename
and the trimmed block body — in particular an empty piece list (a response
with no marked block) yields the empty artifact list — and a fenced block
with no filename marker (here: a slash-free body, so no marker comment at
all) yields no artifact. -/
theorem parseGeneratedTests_spec :
    (∀ (pieces : List (List Char × GenBlock)) (final : List Char),
      (∀ p ∈ pieces, '`' ∉ p.1 ∧ validBlock p.2) → '`' ∉ final →
      parseGeneratedTests (renderChunks pieces final) =
        pieces.map (fun p => TestFile.mk p.2.name (jsTrim p.2.body))) ∧
    (∀ body : List Char, '`' ∉ body → '/' ∉ body →
      parseGeneratedTests
        ('`':: '`':: '`':: 't':: 's':: '\n'::(body ++ ('\n':: '`':: '`':: '`'::[]))) = []) := by
  constructor
  · intro pieces
    induction pieces with
    | nil =>
      intro final _ hf
      exact parse_no_backtick hf
    | cons p more ih =>
      intro final hall hf
      obtain ⟨hfp, hvb⟩ := hall p (by simp)
      rcases p with ⟨filler, b⟩
      rw [renderChunks, parse_append_filler hfp, parse_match (match_render hvb _)]
      obtain ⟨_, hname, hchars, hbody⟩ := hvb
      have h1 : jsTrim b.name = b.name :=
        jsTrim_id_of_no_space (fun c hc => nameChar_not_space (hchars c hc))
      have h2 : jsTrim (List.dropWhile isJsSpace (b.body ++ ('\n'::[]))) =
          jsTrim b.body := by
        rw [jsTrim_dropWhile, jsTrim_append_nl]
      rw [h1, h2, ih final (fun q hq => hall q (by simp [hq])) hf]
      simp
  · intro body hbt hsl
    have hmt1 : matchTail ('\n'::(body ++ ('\n':: '`':: '`':: '`'::[]))) = none := by
      unfold matchTail
      have hfail : litPrefix ('/':: '/'::[])
          (skipSpaces ('\n'::(body ++ ('\n':: '`':: '`':: '`'::[])))) = none := by
        show litPrefix ('/':: '/'::[])
          (List.dropWhile isJsSpace (body ++ ('\n':: '`':: '`':: '`'::[]))) = none
        rw [show body ++ ('\n':: '`':: '`':: '`'::[]) =
          (body ++ ('\n'::[])) ++ ('`':: '`':: '`'::[]) from by
            rw [List.append_assoc]; rfl]
        rw [dropWhile_append_cases]
        by_cases hw : (List.dropWhile isJsSpace (body ++ ('\n'::[]))).isEmpty = true
        · rw [if_pos hw]; rfl
        · rw [if_neg hw]
          rcases hww : List.dropWhile isJsSpace (body ++ ('\n'::[])) with _ | ⟨d, w2⟩
          · rw [hww] at hw; simp at hw
          · have hd : d ∈ body ++ ('\n'::[]) :=
              mem_of_mem_dropWhile (by rw [hww]; simp)
            have hdne : ¬ ('/' = d) := by
              intro he
              rcases List.mem_append.mp hd with hb | hnl
              · exact hsl (he ▸ hb)
              · simp only [List.mem_singleton] at hnl
                rw [← he] at hnl
                exact absurd hnl (by decide)
            show litPrefix ('/':: '/'::[]) (d :: (w2 ++ ('`':: '`':: '`'::[]))) = none
            rw [litPrefix, if_neg hdne]
      rw [hfail]
      rfl
    have hmt2 : matchTail ('t':: 's':: '\n'::(body ++ ('\n':: '`':: '`':: '`'::[]))) =
        none := by
      unfold matchTail
      rw [show litPrefix ('/':: '/'::[]) (skipSpaces
        ('t':: 's':: '\n'::(body ++ ('\n':: '`':: '`':: '`'::[])))) = none from rfl]
      rfl
    have hm1 : matchAt
        ('`':: '`':: '`':: 't':: 's':: '\n'::(body ++ ('\n':: '`':: '`':: '`'::[]))) =
        none := by
      unfold matchAt
      rw [show litPrefix ('`':: '`':: '`'::[])
        ('`':: '`':: '`':: 't':: 's':: '\n'::(body ++ ('\n':: '`':: '`':: '`'::[]))) =
        some ('t':: 's':: '\n'::(body ++ ('\n':: '`':: '`':: '`'::[]))) from rfl]
      show tryLangs langAlts
        ('t':: 's':: '\n'::(body ++ ('\n':: '`':: '`':: '`'::[]))) = none
      have f1 : litPrefix "typescript".toList
          ('t':: 's':: '\n'::(body ++ ('\n':: '`':: '`':: '`'::[]))) = none := rfl
      have f2 : litPrefix "javascript".toList
          ('t':: 's':: '\n'::(body ++ ('\n':: '`':: '`':: '`'::[]))) = none := rfl
      have f3 : litPrefix "ts".toList
          ('t':: 's':: '\n'::(body ++ ('\n':: '`':: '`':: '`'::[]))) =
          some ('\n'::(body ++ ('\n':: '`':: '`':: '`'::[]))) := rfl
      have f4 : litPrefix "js".toList
          ('t':: 's':: '\n'::(body ++ ('\n':: '`':: '`':: '`'::[]))) = none := rfl
      have f5 : litPrefix ([] : List Char)
          ('t':: 's':: '\n'::(body ++ ('\n':: '`':: '`':: '`'::[]))) =
          some ('t':: 's':: '\n'::(body ++ ('\n':: '`':: '`':: '`'::[]))) := rfl
      rw [show langAlts = "typescript".toList :: ["javascript".toList,
        "ts".toList, "js".toList, []] from rfl]
      rw [tryLangs_step_fail f1]
      rw [show ["javascript".toList, "ts".toList, "js".toList, []] =
        "javascript".toList :: ["ts".toList, "js".toList, []] from rfl]
      rw [tryLangs_step_fail f2]
      rw [show ["ts".toList, "js".toList, []] =
        "ts".toList :: ["js".toList, []] from rfl]
      rw [tryLangs_step_miss f3 hmt1]
      rw [show ["js".toList, []] = "js".toList :: ([] : List Char) :: [] from rfl]
      rw [tryLangs_step_fail f4]
      rw [show ([([] : List Char)]) = ([] : List Char) :: [] from rfl]
      rw [tryLangs_step_miss f5 hmt2]
      rfl
    rw [parse_skip hm1]
    have hm2 : matchAt
        ('`':: '`':: 't':: 's':: '\n'::(body ++ ('\n':: '`':: '`':: '`'::[]))) = none := by
      unfold matchAt
      rw [show litPrefix ('`':: '`':: '`'::[])
        ('`':: '`':: 't':: 's':: '\n'::(body ++ ('\n':: '`':: '`':: '`'::[]))) =
        none from rfl]
    rw [parse_skip hm2]
    have hm3 : matchAt
        ('`':: 't':: 's':: '\n'::(body ++ ('\n':: '`':: '`':: '`'::[]))) = none := by
      unfold matchAt
      rw [show litPrefix ('`':: '`':: '`'::[])
        ('`':: 't':: 's':: '\n'::(body ++ ('\n':: '`':: '`':: '`'::[]))) =
        none from rfl]
    rw [parse_skip hm3]
    have hshape : 't':: 's':: '\n'::(body ++ ('\n':: '`':: '`':: '`'::[])) =
        ('t':: 's':: '\n'::(body ++ ('\n'::[]))) ++ ('`':: '`':: '`'::[]) := by
      simp
    rw [hshape]
    have hfree : '`' ∉ 't':: 's':: '\n'::(body ++ ('\n'::[])) := by
      intro hm
      simp only [List.mem_cons, List.mem_append, List.mem_singleton] at hm
      rcases hm with h | h | h | h | h
      · exact absurd h.symm (by decide)
      · exact absurd h.symm (by decide)
      · exact absurd h.symm (by decide)
      · exact hbt h
      · exact absurd h (by decide)
    rw [parse_append_filler hfree]
    decide

/-- Concrete instantiation of `parseGeneratedTests_spec`: one narrated
response with a single marked `ts` block parses to exactly one artifact,
and one marker-free fenced block parses to none. -/
theorem parseGeneratedTests_spec_witness :
    parseGeneratedTests (renderChunks
        [("intro ".toList, GenBlock.mk "ts".toList "a.spec.ts".toList "body".toList)]
        " done".toList) =
      [TestFile.mk "a.spec.ts".toList (jsTrim "body".toList)] ∧
    parseGeneratedTests
      ('`':: '`':: '`':: 't':: 's':: '\n'::("code".toList ++ ('\n':: '`':: '`':: '`'::[]))) =
      [] :=
  ⟨parseGeneratedTests_spec.1
      [("intro ".toList, GenBlock.mk "ts".toList "a.spec.ts".toList "body".toList)]
      " done".toList (by decide) (by decide),
   parseGeneratedTests_spec.2 "code".toList (by decide) (by decide)⟩

theorem matchTail_name {l : List Char} {res : List Char × List Char × List Char}
    (h : matchTail l = some res) :
    res.1 ≠ [] ∧ ∀ c ∈ res.1, isNameChar c = true := by
  unfold matchTail at h
  rcases Option.bind_eq_some.mp h with ⟨l2, h2, h'⟩
  rcases Option.bind_eq_some.mp h' with ⟨l4, h4, h''⟩
  dsimp only [] at h''
  split at h''
  · cases h''
  · next hemp =>
    rcases Option.bind_eq_some.mp h'' with ⟨l7, h7, h3⟩
    rcases Option.map_eq_some'.mp h3 with ⟨pr, hpr, hres⟩
    subst hres
    refine ⟨?_, ?_⟩
    · show (skipSpaces l4).takeWhile isNameChar ≠ []
      intro he
      exact hemp (by rw [he]; rfl)
    · intro c hc
      exact List.mem_takeWhile_imp hc

theorem tryLangs_name :
    ∀ (alts : List (List Char)) {r : List Char}
      {res : List Char × List Char × List Char},
      tryLangs alts r = some res →
      res.1 ≠ [] ∧ ∀ c ∈ res.1, isNameChar c = true := by
  intro alts
  induction alts with
  | nil => intro r res h; rw [tryLangs] at h; cases h
  | cons lang more ih =>
    intro r res h
    rw [tryLangs] at h
    split at h
    · split at h
      · next hres => cases h; exact matchTail_name hres
      · exact ih h
    · exact ih h

theorem matchAt_name {l : List Char} {res : List Char × List Char × List Char}
    (h : matchAt l = some res) :
    res.1 ≠ [] ∧ ∀ c ∈ res.1, isNameChar c = true := by
  unfold matchAt at h
  split at h
  · cases h
  · exact tryLangs_name langAlts h

theorem parseLoopF_names :
    ∀ (fuel : Nat) (l : List Char) (tf : TestFile), tf ∈ parseLoopF fuel l →
      tf.filename ≠ [] ∧ ∀ c ∈ tf.filename, isNameChar c = true := by
  intro fuel
  induction fuel with
  | zero => intro l tf h; simp [parseLoopF] at h
  | succ fuel ih =>
    intro l tf h
    match l with
    | [] => simp [parseLoopF] at h
    | c :: rest =>
      rw [parseLoopF] at h
      split at h
      · next name body after hm =>
        rcases List.mem_cons.mp h with rfl | hmem
        · obtain ⟨hne, hchars⟩ := matchAt_name hm
          have : jsTrim name = name :=
            jsTrim_id_of_no_space (fun c hc => nameChar_not_space (hchars c hc))
          show jsTrim name ≠ [] ∧ ∀ c ∈ jsTrim name, isNameChar c = true
          rw [this]
          exact ⟨hne, hchars⟩
        · exact ih after tf hmem
      · exact ih rest tf h

/-- C10: every artifact the Response Parser emits has a non-empty filename
whose characters all belong to the capture-group alphabet `[\w\-\.\/]`; a
marker whose name would contain any other character (a space, say) never
yields an artifact at all. -/
theorem parseGeneratedTests_filename_charset (s : List Char) (tf : TestFile)
    (h : tf ∈ parseGeneratedTests s) :
    tf.filename ≠ [] ∧ ∀ c ∈ tf.filename, isNameChar c = true :=
  parseLoopF_names _ _ _ h

/-- Concrete instantiation of `parseGeneratedTests_filename_charset` on a
one-block response. -/
theorem parseGeneratedTests_filename_charset_witness :
    "a.ts".toList ≠ [] ∧ ∀ c ∈ "a.ts".toList, isNameChar c = true :=
  parseGeneratedTests_filename_charset
    "```ts\n// [Filename: a.ts]\nx\n```".toList
    (TestFile.mk "a.ts".toList "x".toList) (by decide)

/-! ### C9: the per-chunk generation loop (`_generateTestsWithAI`)

The loop body per chunk `i` performs an AI call whose outcome we abstract as
an oracle `respond : Nat → Except (List Char) (Option (List Char))`:
`.error e` models the try-block throwing an `Error` with message `e`,
`.ok none` models an empty `messageContent` (the `continue` branch), and
`.ok (some msg)` models a response parsed by `_parseGeneratedTests`.
The catch clause rethrows exactly when `error.message.includes('429')`;
otherwise the loop moves on to the next chunk. -/

def genGo (respond : Nat → Except (List Char) (Option (List Char))) :
    List (List CodeContext) → Nat → List TestFile →
      Except (List Char) (List TestFile)
  | [], _, testFiles => Except.ok testFiles
  | _ :: rest, i, testFiles =>
    match respond i with
    | Except.ok none => genGo respond rest (i + 1) testFiles
    | Except.ok (some msg) =>
        genGo respond rest (i + 1) (testFiles ++ parseGeneratedTests msg)
    | Except.error e =>
        if hasSub ('4':: '2':: '9'::[]) e then Except.error e
        else genGo respond rest (i + 1) testFiles

def generateTestsWithAI (respond : Nat → Except (List Char) (Option (List Char)))
    (chunks : List (List CodeContext)) : Except (List Char) (List TestFile) :=
  genGo respond chunks 0 []

/-- The artifacts one chunk contributes: a parsed response contributes its
parse, an empty response or a locally-caught error contributes nothing. -/
def contrib (r : Except (List Char) (Option (List Char))) : List TestFile :=
  match r with
  | Except.ok (some msg) => parseGeneratedTests msg
  | _ => []

def collect (respond : Nat → Except (List Char) (Option (List Char))) :
    Nat → Nat → List TestFile
  | 0, _ => []
  | n + 1, i => contrib (respond i) ++ collect respond n (i + 1)

theorem genGo_collect (respond : Nat → Except (List Char) (Option (List Char))) :
    ∀ (chunks : List (List CodeContext)) (i : Nat) (acc : List TestFile),
      (∀ k, k < chunks.length → ∀ e, respond (i + k) = Except.error e →
        hasSub ('4':: '2':: '9'::[]) e = false) →
      genGo respond chunks i acc =
        Except.ok (acc ++ collect respond chunks.length i) := by
  intro chunks
  induction chunks with
  | nil => intro i acc _; simp [genGo, collect]
  | cons c rest ih =>
    intro i acc hok
    rw [genGo]
    have hnext : ∀ k, k < rest.length → ∀ e,
        respond (i + 1 + k) = Except.error e →
        hasSub ('4':: '2':: '9'::[]) e = false := by
      intro k hk e he
      have : i + 1 + k = i + (k + 1) := by omega
      exact hok (k + 1) (by simp; omega) e (by rw [← this]; exact he)
    rcases hr : respond i with e | msg
    · have h429 : hasSub ('4':: '2':: '9'::[]) e = false :=
        hok 0 (by simp) e (by rw [Nat.add_zero]; exact hr)
      show (if hasSub ('4':: '2':: '9'::[]) e = true then Except.error e
        else genGo respond rest (i + 1) acc) =
        Except.ok (acc ++ collect respond (c :: rest).length i)
      rw [if_neg (by simp [h429])]
      rw [ih (i + 1) acc hnext]
      simp only [List.length_cons]
      rw [collect, hr]
      simp [contrib]
    · rcases msg with _ | msg
      · show genGo respond rest (i + 1) acc =
          Except.ok (acc ++ collect respond (c :: rest).length i)
        rw [ih (i + 1) acc hnext]
        simp only [List.length_cons]
        rw [collect, hr]
        simp [contrib]
      · show genGo respond rest (i + 1) (acc ++ parseGeneratedTests msg) =
          Except.ok (acc ++ collect respond (c :: rest).length i)
        rw [ih (i + 1) (acc ++ parseGeneratedTests msg) hnext]
        simp only [List.length_cons]
        rw [collect, hr]
        simp [contrib]

theorem genGo_abort (respond : Nat → Except (List Char) (Option (List Char)))
    (e : List Char) :
    ∀ (chunks : List (List CodeContext)) (i : Nat) (acc : List TestFile)
      (j : Nat), j < chunks.length → respond (i + j) = Except.error e →
      hasSub ('4':: '2':: '9'::[]) e = true →
      (∀ k, k < j → ∀ e2, respond (i + k) = Except.error e2 →
        hasSub ('4':: '2':: '9'::[]) e2 = false) →
      genGo respond chunks i acc = Except.error e := by
  intro chunks
  induction chunks with
  | nil => intro i acc j hj; simp at hj
  | cons c rest ih =>
    intro i acc j hj hje h429 hpre
    rw [genGo]
    rcases j with _ | j
    · rw [Nat.add_zero] at hje
      rw [hje]
      show (if hasSub ('4':: '2':: '9'::[]) e = true then Except.error e
        else genGo respond rest (i + 1) acc) = Except.error e
      rw [if_pos h429]
    · rcases hr : respond i with e2 | msg
      · have hf : hasSub ('4':: '2':: '9'::[]) e2 = false :=
          hpre 0 (Nat.succ_pos j) e2 (by rw [Nat.add_zero]; exact hr)
        show (if hasSub ('4':: '2':: '9'::[]) e2 = true then Except.error e2
          else genGo respond rest (i + 1) acc) = Except.error e
        rw [if_neg (by simp [hf])]
        refine ih (i + 1) acc j (by simp at hj; omega) ?_ h429 ?_
        · rw [show i + 1 + j = i + (j + 1) from by omega]; exact hje
        · intro k hk e3 he3
          exact hpre (k + 1) (by omega) e3
            (by rw [show i + (k + 1) = i + 1 + k from by omega]; exact he3)
      · have hrec : ∀ acc2, genGo respond rest (i + 1) acc2 = Except.error e := by
          intro acc2
          refine ih (i + 1) acc2 j (by simp at hj; omega) ?_ h429 ?_
          · rw [show i + 1 + j = i + (j + 1) from by omega]; exact hje
          · intro k hk e3 he3
            exact hpre (k + 1) (by omega) e3
              (by rw [show i + (k + 1) = i + 1 + k from by omega]; exact he3)
        rcases msg with _ | msg
        · exact hrec acc
        · exact hrec (acc ++ parseGeneratedTests msg)

/-- C9: in the per-chunk generation loop, (a) when no chunk raises a
rate-limit (429) error, every per-chunk error is caught locally — the loop
runs to the end and returns exactly the concatenated artifacts of the
successful chunks, in order; (b) the first rate-limit error aborts the
remaining chunks and is propagated to the caller verbatim. -/
theorem generateTestsWithAI_spec :
    (∀ (respond : Nat → Except (List Char) (Option (List Char)))
       (chunks : List (List CodeContext)),
      (∀ i, i < chunks.length → ∀ e, respond i = Except.error e →
        hasSub ('4':: '2':: '9'::[]) e = false) →
      generateTestsWithAI respond chunks =
        Except.ok (collect respond chunks.length 0)) ∧
    (∀ (respond : Nat → Except (List Char) (Option (List Char)))
       (chunks : List (List CodeContext)) (j : Nat) (e : List Char),
      j < chunks.length → respond j = Except.error e →
      hasSub ('4':: '2':: '9'::[]) e = true →
      (∀ k, k < j → ∀ e2, respond k = Except.error e2 →
        hasSub ('4':: '2':: '9'::[]) e2 = false) →
      generateTestsWithAI respond chunks = Except.error e) := by
  constructor
  · intro respond chunks hok
    unfold generateTestsWithAI
    rw [genGo_collect respond chunks 0 []
      (fun k hk e he => hok k hk e (by rw [show k = 0 + k from by omega]; exact he))]
    simp
  · intro respond chunks j e hj hje h429 hpre
    unfold generateTestsWithAI
    exact genGo_abort respond e chunks 0 [] j hj
      (by rw [Nat.zero_add]; exact hje) h429
      (fun k hk e2 he2 => hpre k hk e2 (by rw [← Nat.zero_add k]; exact he2))

/-- A three-chunk oracle: chunk 0 succeeds with one marked block, chunk 1
throws a non-rate-limit error, chunk 2 returns an empty message. -/
def respondA : Nat → Except (List Char) (Option (List Char))
  | 0 => Except.ok (some "```ts\n// [Filename: a.ts]\nx\n```".toList)
  | 1 => Except.error "boom".toList
  | _ => Except.ok none

/-- A three-chunk oracle whose second chunk hits the rate limit. -/
def respondB : Nat → Except (List Char) (Option (List Char))
  | 1 => Except.error "Request failed with status code 429".toList
  | _ => Except.ok (some "```ts\n// [Filename: a.ts]\nx\n```".toList)

/-- Concrete instantiation of `generateTestsWithAI_spec`: with oracle
`respondA` the non-429 error of chunk 1 is swallowed and chunks 0 and 2
still contribute; with oracle `respondB` the 429 of chunk 1 aborts and
propagates. -/
theorem generateTestsWithAI_spec_witness :
    generateTestsWithAI respondA [[], [], []] =
      Except.ok (collect respondA 3 0) ∧
    generateTestsWithAI respondB [[], [], []] =
      Except.error "Request failed with status code 429".toList := by
  constructor
  · exact generateTestsWithAI_spec.1 respondA [[], [], []]
      (fun i hi e he => by
        have hi3 : i < 3 := by simpa using hi
        interval_cases i
        · have h0 : Except.ok (some "```ts\n// [Filename: a.ts]\nx\n```".toList) =
            Except.error e := he
          cases h0
        · have h1 : Except.error "boom".toList = Except.error e := he
          cases h1
          decide
        · have h2 : (Except.ok none : Except (List Char) (Option (List Char))) =
            Except.error e := he
          cases h2)
  · exact generateTestsWithAI_spec.2 respondB [[], [], []] 1
      "Request failed with status code 429".toList
      (by decide) rfl (by decide)
      (fun k hk e2 he2 => by
        have hk0 : k = 0 := by omega
        subst hk0
        have h0 : Except.ok (some "```ts\n// [Filename: a.ts]\nx\n```".toList) =
          Except.error e2 := he2
        cases h0)

/-! ### C4 / C5: the structural analyzer (`src/src/indexer/structural.ts`)

We embed the ts-morph AST fragment the analyzer walks as a tree of nodes,
each carrying its `SyntaxKind`, its source text (`getText()`), and its child
list.  `getFirstChild` is the head of the child list, `getLastChild` its
last element, `getFirstChild()?.getNextSibling()` the second child, and
`getDescendants()` the pre-order list of all strictly lower nodes.  In the
model a JsxElement's first child is its opening element, whose first child
is the tag-name node and whose remaining children are its JsxAttribute
nodes; a self-closing element carries its tag-name node and attributes as
direct children.  `getFirstAncestor(p)` searches an explicit ancestor list,
nearest first, which the embedding threads as a parameter. -/

inductive SKind where
  | jsxElement
  | jsxSelfClosingElement
  | jsxOpeningElement
  | jsxClosingElement
  | jsxAttribute
  | jsxText
  | identifier
  | stringLiteral
  | other
deriving DecidableEq, Repr

inductive TSNode where
  | node (kind : SKind) (text : List Char) (children : List TSNode)

def TSNode.kind : TSNode → SKind
  | .node k _ _ => k

def TSNode.text : TSNode → List Char
  | .node _ t _ => t

def TSNode.children : TSNode → List TSNode
  | .node _ _ c => c

mutual

def sizeN : TSNode → Nat
  | .node _ _ cs => 1 + sizeList cs

def sizeList : List TSNode → Nat
  | [] => 0
  | n :: rest => sizeN n + sizeList rest

end

/-- Pre-order worklist traversal; `fuel ≥ sizeList worklist` exhausts it. -/
def descendGo : Nat → List TSNode → List TSNode
  | 0, _ => []
  | _ + 1, [] => []
  | fuel + 1, n :: rest => n :: descendGo fuel (n.children ++ rest)

/-- `node.getDescendants()`: every node strictly below, pre-order. -/
def getDescendants (n : TSNode) : List TSNode :=
  descendGo (sizeN n) n.children

/-- `.replace(/['"]/g, '')` -/
def stripQuotes (l : List Char) : List Char :=
  l.filter (fun c => !(c == '\'' || c == '"'))

/-- `d.getKind() === SyntaxKind.JsxAttribute && d.getFirstChild()?.getText() === nm`
(an optional chain yielding `undefined` compares unequal to any string). -/
def isAttrNamed (nm : List Char) (d : TSNode) : Bool :=
  d.kind == SKind.jsxAttribute &&
    (match d.children.head? with
     | some c => c.text == nm
     | none => false)

/-- `attr.getLastChild()?.getText().replace(/['"]/g, '')` -/
def attrValue (d : TSNode) : Option (List Char) :=
  d.children.getLast?.map (fun c => stripQuotes c.text)

def findAttr (nm : List Char) (n : TSNode) : Option TSNode :=
  (getDescendants n).find? (isAttrNamed nm)

def isElementKind (n : TSNode) : Bool :=
  n.kind == SKind.jsxElement || n.kind == SKind.jsxSelfClosingElement

structure Selectors where
  testId : Option (List Char)
  name : Option (List Char)
  label : Option (List Char)
  role : Option (List Char)
  text : Option (List Char)
  type : Option (List Char)
  props : Option (List (List Char × List Char))
deriving DecidableEq, Repr

def selTestId (n : TSNode) : Option (List Char) :=
  (findAttr "data-testid".toList n).bind attrValue

def selName (n : TSNode) : Option (List Char) :=
  (findAttr "name".toList n).bind attrValue

def selAriaLabel (n : TSNode) : Option (List Char) :=
  (findAttr "aria-label".toList n).bind attrValue

def selRole (n : TSNode) : Option (List Char) :=
  (findAttr "role".toList n).bind attrValue

/-- `node.getFirstChild()?.getNextSibling()?.getText()`, assigned only when
truthy (non-empty), then trimmed. -/
def selText (n : TSNode) : Option (List Char) :=
  match n.children[1]? with
  | some c => if c.text ≠ [] then some (jsTrim c.text) else none
  | none => none

def selType (n : TSNode) : Option (List Char) :=
  if isElementKind n then (findAttr "type".toList n).bind attrValue else none

/-- The label selector: `aria-label` by default; for element kinds, a truthy
`aria-labelledby` value redirects to the first ancestor owning a matching
`id` attribute, whose first JsxText descendant (trimmed) is assigned — even
when that descendant is absent (overwriting with `undefined`). -/
def selLabel (ancestors : List TSNode) (n : TSNode) : Option (List Char) :=
  if isElementKind n then
    match (findAttr "aria-labelledby".toList n).bind attrValue with
    | some labelId =>
      if labelId ≠ [] then
        match ancestors.find? (fun anc => (getDescendants anc).any (fun d =>
            isAttrNamed "id".toList d && (attrValue d == some labelId))) with
        | some labelElement =>
          ((getDescendants labelElement).find?
              (fun d => d.kind == SKind.jsxText)).map (fun t => jsTrim t.text)
        | none => selAriaLabel n
      else selAriaLabel n
    | none => selAriaLabel n
  else selAriaLabel n

def extractSelectors (ancestors : List TSNode) (n : TSNode) : Selectors :=
  { testId := selTestId n, name := selName n, label := selLabel ancestors n,
    role := selRole n, text := selText n, type := selType n, props := none }

/-- `tag` before cleanup: the opening element's tag-name-node text for a
JsxElement, the element's own tag-name-node text otherwise. -/
def elTagRaw (n : TSNode) : List Char :=
  if n.kind == SKind.jsxElement then
    match n.children.head? with
    | some op =>
      match op.children.head? with
      | some tn => tn.text
      | none => []
    | none => []
  else
    match n.children.head? with
    | some tn => tn.text
    | none => []

/-- `tag.split('\n')[0].trim()` -/
def elTagClean (n : TSNode) : List Char :=
  jsTrim ((elTagRaw n).takeWhile (fun c => !(c == '\n')))

/-- `/^[A-Z]/.test(tag)` -/
def isUpperStart (l : List Char) : Bool :=
  match l.head? with
  | some c => 'A' ≤ c && c ≤ 'Z'
  | none => false

def elIsComponent (n : TSNode) : Bool :=
  isUpperStart (elTagClean n)

def elTag (n : TSNode) : List Char :=
  if elIsComponent n then ('<' :: elTagClean n) ++ (' ':: '/':: '>'::[])
  else ('<' :: jsLower (elTagClean n)) ++ ('>'::[])

def elAttributes (n : TSNode) : List TSNode :=
  (getDescendants n).filter (fun d => d.kind == SKind.jsxAttribute)

/-- `attr.getFirstChild()?.getText() || ''` -/
def attrNameD (d : TSNode) : List Char :=
  match d.children.head? with
  | some c => c.text
  | none => []

/-- `.replace(/['"{}]/g, '')` -/
def stripPropVal (l : List Char) : List Char :=
  l.filter (fun c => !(c == '\'' || c == '"' || c == '\x7b' || c == '\x7d'))

/-- `attr.getLastChild()?.getText()?.replace(/['"{}]/g, '') || ''` -/
def attrValD (d : TSNode) : List Char :=
  match d.children.getLast? with
  | some c => stripPropVal c.text
  | none => []

/-- JS object assignment `props[name] = value`: overwrite or append. -/
def setProp (props : List (List Char × List Char)) (nm v : List Char) :
    List (List Char × List Char) :=
  if props.any (fun p => p.1 == nm) then
    props.map (fun p => if p.1 == nm then (nm, v) else p)
  else props ++ [(nm, v)]

def propsOf : List TSNode → List (List Char × List Char) →
    List (List Char × List Char)
  | [], props => props
  | attr :: rest, props =>
    let nm := attrNameD attr
    let v := attrValD attr
    if nm ≠ [] ∧ v ≠ [] then propsOf rest (setProp props nm v)
    else propsOf rest props

def getProp (props : List (List Char × List Char)) (nm : List Char) :
    Option (List Char) :=
  (props.find? (fun p => p.1 == nm)).map (fun p => p.2)

def elProps (n : TSNode) : List (List Char × List Char) :=
  propsOf (elAttributes n) []

/-- `name.startsWith('on')` with `name = attr.getFirstChild()?.getText() || ''`;
in the `events` filter the `|| ''` default is omitted but the optional chain
short-circuits to `undefined`, which is falsy — both read as: no first child
means false. -/
def attrStartsOn (d : TSNode) : Bool :=
  isPrefixL ('o':: 'n'::[]) (attrNameD d)

/-- The attribute-independent disjuncts of the event-detection predicate. -/
def eventCond (n : TSNode) : Bool :=
  (getProp (elProps n) "onClick".toList).isSome ||
  (getProp (elProps n) "href".toList).isSome ||
  hasSub "button".toList (jsLower (elTag n)) ||
  (elIsComponent n &&
    (hasSub "link".toList (jsLower (elTag n)) ||
     hasSub "button".toList (jsLower (elTag n)) ||
     hasSub "menu".toList (jsLower (elTag n))))

/-- `attributes.some(attr => name.startsWith('on') || ...constant rules...)` -/
def elHasEvents (n : TSNode) : Bool :=
  (elAttributes n).any (fun attr => attrStartsOn attr || eventCond n)

/-- `attr.getFirstChild()?.getText().slice(2).toLowerCase() || ''` -/
def attrEventName (d : TSNode) : List Char :=
  match d.children.head? with
  | some c => jsLower (c.text.drop 2)
  | none => []

def elEvents (n : TSNode) : List (List Char) :=
  ((elAttributes n).filter attrStartsOn).map attrEventName

/-- `events[0] || (hasEvents ? 'interaction' : undefined)`; `events[0]` is
falsy when absent or the empty string. -/
def elEventType (n : TSNode) : Option (List Char) :=
  match (elEvents n).head? with
  | some e =>
    if e ≠ [] then some e
    else if elHasEvents n then some "interaction".toList else none
  | none => if elHasEvents n then some "interaction".toList else none

inductive UIElement where
  | mk (tag : List Char) (type : Option (List Char)) (selectors : Selectors)
       (hasEvents : Bool) (eventType : Option (List Char))
       (children : Option (List UIElement))

def UIElement.tag : UIElement → List Char
  | .mk t _ _ _ _ _ => t

def UIElement.hasEvents : UIElement → Bool
  | .mk _ _ _ h _ _ => h

def UIElement.eventType : UIElement → Option (List Char)
  | .mk _ _ _ _ e _ => e

def UIElement.selectors : UIElement → Selectors
  | .mk _ _ s _ _ _ => s

/-- `analyzeElement`, fuelled for the recursion into children.  The
`validation` field (set only for input/textarea/select tags by
`extractValidation`) is outside every claim and is not modelled. -/
def analyzeElementF : Nat → List TSNode → TSNode → Option UIElement
  | 0, _, _ => none
  | fuel + 1, ancestors, n =>
    if isElementKind n then
      let props := elProps n
      let kids :=
        if n.children.length > 2 then
          n.children.filterMap (analyzeElementF fuel (n :: ancestors))
        else []
      some (UIElement.mk (elTag n) (getProp props "type".toList)
        { extractSelectors ancestors n with
            props := if props.isEmpty then none else some props }
        (elHasEvents n) (elEventType n)
        (if kids.isEmpty then none else some kids))
    else none

def analyzeElement (ancestors : List TSNode) (n : TSNode) : Option UIElement :=
  analyzeElementF (sizeN n) ancestors n

/-- Modelled from the spec's words, not from the code: the element's *own*
attribute list — the JsxAttribute children of its own opening element (for
a JsxElement) or of the element node itself (self-closing); to be compared
with the `getDescendants()`-based extraction the code performs. -/
def specOwnAttributes (n : TSNode) : List TSNode :=
  if n.kind == SKind.jsxElement then
    match n.children.head? with
    | some op => op.children.filter (fun d => d.kind == SKind.jsxAttribute)
    | none => []
  else if n.kind == SKind.jsxSelfClosingElement then
    n.children.filter (fun d => d.kind == SKind.jsxAttribute)
  else []

def exButtonOpen : TSNode :=
  TSNode.node SKind.jsxOpeningElement "<button>".toList
    [TSNode.node SKind.identifier "button".toList []]

def exButtonClose : TSNode :=
  TSNode.node SKind.jsxClosingElement "</button>".toList
    [TSNode.node SKind.identifier "button".toList []]

def exButton : TSNode :=
  TSNode.node SKind.jsxElement "<button>Click</button>".toList
    [exButtonOpen, TSNode.node SKind.jsxText "Click".toList [], exButtonClose]

def exTIAttr : TSNode :=
  TSNode.node SKind.jsxAttribute "data-testid=\"x\"".toList
    [TSNode.node SKind.identifier "data-testid".toList [],
     TSNode.node SKind.stringLiteral "\"x\"".toList []]

def exInput : TSNode :=
  TSNode.node SKind.jsxSelfClosingElement "<input data-testid=\"x\" />".toList
    [TSNode.node SKind.identifier "input".toList [], exTIAttr]

def exDivOpen : TSNode :=
  TSNode.node SKind.jsxOpeningElement "<div>".toList
    [TSNode.node SKind.identifier "div".toList []]

def exDivClose : TSNode :=
  TSNode.node SKind.jsxClosingElement "</div>".toList
    [TSNode.node SKind.identifier "div".toList []]

def exDiv : TSNode :=
  TSNode.node SKind.jsxElement "<div><input /></div>".toList
    [exDivOpen, exInput, exDivClose]

def exClickAttr : TSNode :=
  TSNode.node SKind.jsxAttribute "onClick=handler".toList
    [TSNode.node SKind.identifier "onClick".toList [],
     TSNode.node SKind.other "handler".toList []]

def exClickOpen : TSNode :=
  TSNode.node SKind.jsxOpeningElement "<button onClick=handler>".toList
    [TSNode.node SKind.identifier "button".toList [], exClickAttr]

def exClickBtn : TSNode :=
  TSNode.node SKind.jsxElement "<button onClick=handler>Submit</button>".toList
    [exClickOpen, TSNode.node SKind.jsxText "Submit".toList [], exButtonClose]

theorem sizeN_pos (n : TSNode) : ∃ f, sizeN n = f + 1 := by
  rcases n with ⟨k, t, c⟩
  exact ⟨sizeList c, by rw [sizeN]; omega⟩

theorem any_or_const {α : Type} (p : α → Bool) (c : Bool) (l : List α) :
    l.any (fun a => p a || c) = (!l.isEmpty && (l.any p || c)) := by
  cases l with
  | nil => rfl
  | cons x xs =>
    cases c
    · simp
    · simp

/-- C4 counterexample: a plain `<button>` with no attributes.  Its tag
contains "button", so the claim demands hasEvents = true with eventType
the generic interaction marker — but the code's event rules sit inside
`attributes.some(...)`, which is false on an empty attribute list, so
hasEvents is false and eventType absent. -/
theorem analyzeElement_events_cex :
    (analyzeElement [] exButton).map
        (fun el => (el.tag, el.hasEvents, el.eventType)) =
      some ("<button>".toList, false, none) ∧
    hasSub "button".toList (jsLower (elTag exButton)) = true := by decide

/-- C4: (corrected) the produced element's hasEvents is true iff the
attribute list is NON-EMPTY and (some attribute name starts with "on", or a
resolved onClick/href prop is present, or the tag contains "button", or a
component tag contains "link"/"button"/"menu"); when the first
`on`-attribute's lower-cased suffix is non-empty it is the eventType, and
with no (or an empty-named) event attribute the eventType is the
"interaction" marker exactly when hasEvents holds. -/
theorem analyzeElement_events (anc : List TSNode) (n : TSNode) (el : UIElement)
    (h : analyzeElement anc n = some el) :
    el.hasEvents = (!(elAttributes n).isEmpty &&
      ((elAttributes n).any attrStartsOn || eventCond n)) ∧
    (∀ e, (elEvents n).head? = some e → e ≠ [] → el.eventType = some e) ∧
    ((elEvents n).head? = some [] ∨ (elEvents n).head? = none →
      el.eventType = if el.hasEvents then some "interaction".toList else none) := by
  unfold analyzeElement at h
  obtain ⟨f, hf⟩ := sizeN_pos n
  rw [hf] at h
  rw [analyzeElementF] at h
  split at h
  · dsimp only [] at h
    have hel := Option.some.inj h
    subst hel
    refine ⟨?_, ?_, ?_⟩
    · exact any_or_const attrStartsOn (eventCond n) (elAttributes n)
    · intro e he hne
      show elEventType n = some e
      rw [elEventType, he]
      show (if e ≠ [] then some e
        else if elHasEvents n then some "interaction".toList else none) = some e
      rw [if_pos hne]
    · intro hc
      show elEventType n =
        if elHasEvents n then some "interaction".toList else none
      rw [elEventType]
      rcases hc with hc | hc
      · rw [hc]
        show (if ([] : List Char) ≠ [] then some []
          else if elHasEvents n then some "interaction".toList else none) = _
        rw [if_neg (by simp)]
      · rw [hc]
  · exact Option.noConfusion h

/-- Concrete instantiation of `analyzeElement_events` on
`<button onClick=handler>Submit</button>`: a non-empty attribute list with
an `on`-attribute gives hasEvents = true and eventType "click". -/
theorem analyzeElement_events_witness :
    (analyzeElement [] exClickBtn).map UIElement.hasEvents = some true ∧
    (analyzeElement [] exClickBtn).map UIElement.eventType =
      some (some "click".toList) := by
  have hs : (analyzeElement [] exClickBtn).isSome = true := by decide
  have h : analyzeElement [] exClickBtn =
      some ((analyzeElement [] exClickBtn).get hs) := (Option.some_get hs).symm
  obtain ⟨h1, h2, h3⟩ := analyzeElement_events [] exClickBtn _ h
  constructor
  · rw [h, Option.map_some', h1]
    decide
  · rw [h, Option.map_some']
    rw [h2 "click".toList (by decide) (by decide)]

/-- C5 counterexample: a `<div>` with no attributes of its own wrapping a
self-closing `<input data-testid="x" />`.  The spec says selector
extraction inspects the element's own attribute list only, yet the code
searches `getDescendants()`, so the nested input's attribute supplies the
div's testId selector. -/
theorem extractSelectors_own_cex :
    (specOwnAttributes exDiv).isEmpty = true ∧
    (extractSelectors [] exDiv).testId = some ('x'::[]) := by decide

/-- C5: (corrected) the testId, name, role, text, and type selectors never
depend on the ancestor chain, and when the element carries no
aria-labelledby value neither does label — but they are drawn from ALL
descendants of the element, so a nested element's attribute can supply
them, and a truthy aria-labelledby redirects label to an ancestor's text. -/
theorem extractSelectors_ancestor_independent
    (anc anc2 : List TSNode) (n : TSNode) :
    (extractSelectors anc n).testId = (extractSelectors anc2 n).testId ∧
    (extractSelectors anc n).name = (extractSelectors anc2 n).name ∧
    (extractSelectors anc n).role = (extractSelectors anc2 n).role ∧
    (extractSelectors anc n).text = (extractSelectors anc2 n).text ∧
    (extractSelectors anc n).type = (extractSelectors anc2 n).type ∧
    ((findAttr "aria-labelledby".toList n).bind attrValue = none →
      (extractSelectors anc n).label = (extractSelectors anc2 n).label) := by
  refine ⟨rfl, rfl, rfl, rfl, rfl, ?_⟩
  intro hno
  show selLabel anc n = selLabel anc2 n
  unfold selLabel
  rw [hno]

/-- Concrete instantiation of `extractSelectors_ancestor_independent`: the
input element has no aria-labelledby, so even its label selector is the
same under different ancestor chains. -/
theorem extractSelectors_ancestor_independent_witness :
    (extractSelectors [exDiv] exInput).label =
      (extractSelectors [] exInput).label :=
  (extractSelectors_ancestor_independent [exDiv] [] exInput).2.2.2.2.2
    (by decide)

end E2E
